import Mathlib

/-!
# go-psd: the caching fetch pipeline of `client.go`

A shallow embedding of `NewClient` and `Client.GetWithContext` together with the
library routines they call, and the properties of the fetch pipeline proved on it.

Conventions.
* A Go `string` / `[]byte` is a Lean `String`, one `Char` per byte; where the code tells
  a nil slice from an empty one (`cacheValue.data`, line 99) the slice is an `Option`.
* A Go `error` is identified with its message.
* The lookup URL is computed by `(*URL).JoinPath` and `(*URL).String`. These, and what
  they call (`path.Join`, `path.Clean`, `escape`, `unescape`, `EscapedPath`, `setPath`),
  are transcribed from the Go standard library (`net/url` and `path`, as of Go 1.27).
* The cache is `github.com/hashicorp/golang-lru/v2`: a bounded map with an eviction
  list, most recently used entry first.
* Calls that leave the process (`http.DefaultClient.Do`, `time.Now`) are fields of a
  per-call `World`; pure library functions that are not transcribed (`url.Parse`,
  `json.Unmarshal`, the base64 of basic authentication) are fields of a fixed `Env`.
* `GetWithContext` returns an `Outcome`: its two return values, the client with its cache
  after the call, and the trace of the calls it made, in order.
-/

namespace Psd

/-! ## Package `path`: `Clean` and `Join` -/

/-- The inner loop of the `..` case of `path.Clean`:
`for out.w > dotdot && out.index(out.w) != '/' { out.w-- }`, started at `w`. -/
def backtrack (buf : List Char) (dotdot : Nat) : Nat → Nat
  | 0 => 0
  | w + 1 =>
    if dotdot < w + 1 ∧ buf.getD (w + 1) '/' ≠ '/' then backtrack buf dotdot w else w + 1

/-- The `..` case of `path.Clean`: either backtrack to the previous slash, or (for a
path that is not rooted) append a `..` element and move `dotdot`. Returns the new
buffer and the new `dotdot`. -/
def cleanDotDot (rooted : Bool) (out : List Char) (dotdot : Nat) : List Char × Nat :=
  if dotdot < out.length then
    (out.take (backtrack out dotdot (out.length - 1)), dotdot)
  else if !rooted then
    let out1 := if 0 < out.length then out ++ ['/'] else out
    let out2 := out1 ++ ['.', '.']
    (out2, out2.length)
  else
    (out, dotdot)

/-- The `add slash if needed` step of the default case of `path.Clean`:
`if rooted && out.w != 1 || !rooted && out.w != 0 { out.append('/') }`. -/
def cleanAddSlash (rooted : Bool) (out : List Char) : List Char :=
  if (rooted && out.length != 1) || (!rooted && out.length != 0) then out ++ ['/'] else out

/-- The main loop of `path.Clean` over the unread part of the path. `copying = true`
is the inner loop `for ; r < n && path[r] != '/'; r++ { out.append(path[r]) }` of the
default case; `copying = false` is the head of the outer `for r < n` loop. -/
def cleanLoop (rooted : Bool) : Bool → List Char → List Char → Nat → List Char
  | _, [], out, _ => out
  | true, c :: rest, out, dotdot =>
    if c = '/' then cleanLoop rooted false rest out dotdot
    else cleanLoop rooted true rest (out ++ [c]) dotdot
  | false, c :: rest, out, dotdot =>
    if c = '/' then
      cleanLoop rooted false rest out dotdot
    else if c = '.' ∧ (rest = [] ∨ rest.head? = some '/') then
      cleanLoop rooted false rest out dotdot
    else
      match rest with
      | [] => cleanLoop rooted true [] (cleanAddSlash rooted out ++ [c]) dotdot
      | d :: rest2 =>
        if c = '.' ∧ d = '.' ∧ (rest2 = [] ∨ rest2.head? = some '/') then
          cleanLoop rooted false rest2 (cleanDotDot rooted out dotdot).1
            (cleanDotDot rooted out dotdot).2
        else
          cleanLoop rooted true (d :: rest2) (cleanAddSlash rooted out ++ [c]) dotdot

/-- Go `path.Clean` on the bytes of the path. -/
def cleanChars (path : List Char) : List Char :=
  match path with
  | [] => ['.']
  | c :: rest =>
    let out :=
      if c = '/' then cleanLoop true false rest ['/'] 1
      else cleanLoop false false (c :: rest) [] 0
    if out.length = 0 then ['.'] else out

/-- Go `path.Clean`. -/
def Clean (path : String) : String := ⟨cleanChars path.data⟩

/-- The loop of `path.Join` that concatenates the non-empty elements with `/`. -/
def joinBuf : List Char → List String → List Char
  | buf, [] => buf
  | buf, e :: es =>
    if 0 < buf.length ∨ e ≠ "" then
      joinBuf ((if 0 < buf.length then buf ++ ['/'] else buf) ++ e.data) es
    else joinBuf buf es

/-- Go `path.Join`. -/
def Join (elem : List String) : String :=
  if (elem.map String.length).sum = 0 then "" else Clean ⟨joinBuf [] elem⟩

/-! ## Package `net/url`: escaping, `URL`, `JoinPath`, `String` -/

/-- The `encoding` modes of `net/url`. -/
inductive Encoding where
  | encodePath
  | encodePathSegment
  | encodeHost
  | encodeZone
  | encodeUserPassword
  | encodeQueryComponent
  | encodeFragment
  deriving DecidableEq, Repr

/-- Go `ishex`. -/
def ishex (c : Char) : Bool :=
  ('0' ≤ c && c ≤ '9') || ('a' ≤ c && c ≤ 'f') || ('A' ≤ c && c ≤ 'F')

/-- Go `unhex`: `9*(c>>6) + (c&15)`, the value of a hex digit (every call follows
`ishex`). -/
def unhex (c : Char) : Nat :=
  9 * (c.toNat >>> 6) + (c.toNat &&& 15)

/-- Go `shouldEscape`: whether byte `c` must be percent-encoded in the given mode. -/
def shouldEscape (c : Char) (mode : Encoding) : Bool :=
  if ('a' ≤ c && c ≤ 'z') || ('A' ≤ c && c ≤ 'Z') || ('0' ≤ c && c ≤ '9') then false
  else if (mode = .encodeHost ∨ mode = .encodeZone) ∧
      c ∈ ['!', '$', '&', '\'', '(', ')', '*', '+', ',', ';', '=', ':', '[', ']', '<', '>', '"']
    then false
  else if c ∈ ['-', '_', '.', '~'] then false
  else if c ∈ ['$', '&', '+', ',', '/', ':', ';', '=', '?', '@'] ∧
      mode ∈ [Encoding.encodePath, .encodePathSegment, .encodeUserPassword,
        .encodeQueryComponent, .encodeFragment] then
    match mode with
    | .encodePath => c = '?'
    | .encodePathSegment => c = '/' || c = ';' || c = ',' || c = '?'
    | .encodeUserPassword => c = '@' || c = '/' || c = '?' || c = ':'
    | .encodeQueryComponent => true
    | _ => false
  else if mode = .encodeFragment ∧ c ∈ ['!', '(', ')', '*'] then false
  else true

/-- The table `upperhex`. -/
def upperhex : List Char := "0123456789ABCDEF".data

/-- Go `escape`, byte by byte: a space becomes `+` in query components, a byte that
`shouldEscape` becomes `%XX`, every other byte is copied. (The Go code first counts the
bytes to escape and returns `s` itself when there are none; the result is the same.) -/
def escapeChars (mode : Encoding) : List Char → List Char
  | [] => []
  | c :: cs =>
    (if c = ' ' ∧ mode = .encodeQueryComponent then ['+']
     else if shouldEscape c mode then
       ['%', upperhex.getD (c.toNat >>> 4) '0', upperhex.getD (c.toNat &&& 15) '0']
     else [c]) ++ escapeChars mode cs

/-- Go `escape`. -/
def escape (s : String) (mode : Encoding) : String := ⟨escapeChars mode s.data⟩

/-- First pass of Go `unescape`: check that every `%` is followed by two hex digits
(and the host rules in the host modes). `none` when well formed, otherwise the
offending text carried by the `EscapeError` / `InvalidHostError`. -/
def unescapeCheck (mode : Encoding) : List Char → Option String
  | [] => none
  | '%' :: rest =>
    match rest with
    | a :: b :: rest2 =>
      if !ishex a || !ishex b then some ⟨['%', a, b]⟩
      else if mode = .encodeHost ∧ unhex a < 8 ∧ ['%', a, b] ≠ ['%', '2', '5'] then
        some ⟨['%', a, b]⟩
      else if mode = .encodeZone ∧ ['%', a, b] ≠ ['%', '2', '5'] ∧ unhex a * 16 + unhex b ≠ 32 ∧
          shouldEscape (Char.ofNat (unhex a * 16 + unhex b)) .encodeHost then
        some ⟨['%', a, b]⟩
      else unescapeCheck mode rest2
    | _ => some ⟨'%' :: rest⟩
  | c :: rest =>
    if (mode = .encodeHost ∨ mode = .encodeZone) ∧ c.toNat < 128 ∧ shouldEscape c .encodeHost
    then some ⟨[c]⟩
    else unescapeCheck mode rest

/-- Second pass of Go `unescape`: decode `%XX` and, in query components, `+`. -/
def unescapeChars (mode : Encoding) : List Char → List Char
  | [] => []
  | '%' :: rest =>
    match rest with
    | a :: b :: rest2 => Char.ofNat (unhex a * 16 + unhex b) :: unescapeChars mode rest2
    | _ => []
  | c :: rest =>
    (if c = '+' ∧ mode = .encodeQueryComponent then ' ' else c) :: unescapeChars mode rest

/-- Go `unescape`: the decoded string, or the text of the malformed escape. -/
def unescape (s : String) (mode : Encoding) : Except String String :=
  match unescapeCheck mode s.data with
  | some bad => .error bad
  | none => .ok ⟨unescapeChars mode s.data⟩

/-- Go `validEncoding`. -/
def validEncoding (s : String) (mode : Encoding) : Bool :=
  s.data.all fun c =>
    if c ∈ ['!', '$', '&', '\'', '(', ')', '*', '+', ',', ';', '=', ':', '@'] then true
    else if c ∈ ['[', ']'] then true
    else if c = '%' then true
    else !shouldEscape c mode

/-- Go `url.Userinfo` (behind a pointer in `URL.User`, so `none` is the nil pointer). -/
structure Userinfo where
  username : String
  password : String
  passwordSet : Bool
  deriving DecidableEq, Repr

/-- Go `(*Userinfo).String` for a non-nil receiver. -/
def Userinfo.String (u : Userinfo) : String :=
  escape u.username .encodeUserPassword ++
    (if u.passwordSet then ":" ++ escape u.password .encodeUserPassword else "")

/-- Go `url.URL`. -/
structure URL where
  Scheme : String := ""
  Opaque : String := ""
  User : Option Userinfo := none
  Host : String := ""
  Path : String := ""
  RawPath : String := ""
  OmitHost : Bool := false
  ForceQuery : Bool := false
  RawQuery : String := ""
  Fragment : String := ""
  RawFragment : String := ""
  deriving DecidableEq, Repr

/-- Go `(*URL).EscapedPath`. -/
def URL.EscapedPath (u : URL) : String :=
  let fallback := if u.Path = "*" then "*" else escape u.Path .encodePath
  if u.RawPath ≠ "" ∧ validEncoding u.RawPath .encodePath then
    match unescape u.RawPath .encodePath with
    | .ok p => if p = u.Path then u.RawPath else fallback
    | .error _ => fallback
  else fallback

/-- Go `(*URL).EscapedFragment`. -/
def URL.EscapedFragment (u : URL) : String :=
  if u.RawFragment ≠ "" ∧ validEncoding u.RawFragment .encodeFragment then
    match unescape u.RawFragment .encodeFragment with
    | .ok f => if f = u.Fragment then u.RawFragment else escape u.Fragment .encodeFragment
    | .error _ => escape u.Fragment .encodeFragment
  else escape u.Fragment .encodeFragment

/-- Go `(*URL).setPath`; on a malformed escape the receiver is left as it was (the
caller `JoinPath` drops the error). -/
def URL.setPath (u : URL) (p : String) : URL :=
  match unescape p .encodePath with
  | .error _ => u
  | .ok path =>
    { u with Path := path, RawPath := if p = escape path .encodePath then "" else p }

/-- Go `(*URL).JoinPath` with the single element `elem`. -/
def URL.JoinPath (u : URL) (elem : String) : URL :=
  let elem0 := u.EscapedPath
  let p : String :=
    if elem0.data.head? ≠ some '/' then ⟨(Join ["/" ++ elem0, elem]).data.drop 1⟩
    else Join [elem0, elem]
  let p := if elem.data.getLast? = some '/' ∧ p.data.getLast? ≠ some '/' then p ++ "/" else p
  u.setPath p

/-- Go `(*URL).String`. When the host is omitted (`OmitHost`, no host, no user) and the
escaped path starts with `//`, its first slash is written as `%2F`, so that the path is
not read back as an authority. -/
def URL.String (u : URL) : String :=
  let scheme := if u.Scheme ≠ "" then u.Scheme ++ ":" else ""
  let body :=
    if u.Opaque ≠ "" then scheme ++ u.Opaque
    else
      let authority :=
        if u.Scheme ≠ "" ∨ u.Host ≠ "" ∨ u.User ≠ none then
          if u.OmitHost ∧ u.Host = "" ∧ u.User = none then ""
          else
            (if u.Host ≠ "" ∨ u.Path ≠ "" ∨ u.User ≠ none then "//" else "") ++
            (match u.User with
             | some ui => ui.String ++ "@"
             | none => "") ++
            (if u.Host ≠ "" then escape u.Host .encodeHost else "")
        else ""
      let path := u.EscapedPath
      let path :=
        if u.OmitHost ∧ u.Host = "" ∧ u.User = none ∧ path.data.take 2 = ['/', '/'] then
          "%2F" ++ ⟨path.data.drop 1⟩
        else path
      let buf := scheme ++ authority
      let buf := if path ≠ "" ∧ path.data.head? ≠ some '/' ∧ u.Host ≠ "" then buf ++ "/" else buf
      let buf :=
        if buf = "" ∧ ':' ∈ path.data.takeWhile (fun c => c ≠ '/') then buf ++ "./" else buf
      buf ++ path
  let body := if u.ForceQuery ∨ u.RawQuery ≠ "" then body ++ "?" ++ u.RawQuery else body
  if u.Fragment ≠ "" then body ++ "#" ++ u.EscapedFragment else body

/-! ## `github.com/hashicorp/golang-lru/v2`: the bounded LRU cache -/

/-- The type `cacheValue` of `client.go`. `data` is a `[]byte`; `none` is the nil slice,
which line 99 (`if datab == nil`) tells apart from an empty one. -/
structure cacheValue where
  data : Option String
  etag : String
  cachedAt : String
  deriving DecidableEq, Repr

/-- The value stored under `key` in an eviction list (the `items` map of the LRU). -/
def lookupEntry (key : String) : List (String × cacheValue) → Option cacheValue
  | [] => none
  | (k, v) :: rest => if k = key then some v else lookupEntry key rest

/-- Remove the entry stored under `key` from an eviction list. -/
def removeEntry (key : String) : List (String × cacheValue) → List (String × cacheValue)
  | [] => []
  | (k, v) :: rest => if k = key then rest else (k, v) :: removeEntry key rest

/-- The cache `lru.Cache[string, cacheValue]`: its bound and its eviction list, most
recently used entry first. -/
structure Cache where
  size : Nat
  evictList : List (String × cacheValue)
  deriving DecidableEq, Repr

/-- Go `lru.New[string, cacheValue](size)`: fails unless the size is positive. -/
def lruNew (size : Int) : Except String Cache :=
  if size ≤ 0 then .error "must provide a positive size"
  else .ok { size := size.toNat, evictList := [] }

/-- Go `(*Cache).Get`: the value under `key` if present, and the cache with that entry
moved to the front of the eviction list. -/
def Cache.Get (c : Cache) (key : String) : Option cacheValue × Cache :=
  match lookupEntry key c.evictList with
  | some v => (some v, { c with evictList := (key, v) :: removeEntry key c.evictList })
  | none => (none, c)

/-- Go `(*Cache).Add`: update an entry in place and move it to the front, or push a new
entry to the front and drop the oldest one when the bound is exceeded. -/
def Cache.Add (c : Cache) (key : String) (value : cacheValue) : Cache :=
  match lookupEntry key c.evictList with
  | some _ => { c with evictList := (key, value) :: removeEntry key c.evictList }
  | none =>
    let l := (key, value) :: c.evictList
    if c.size < l.length then { c with evictList := l.dropLast } else { c with evictList := l }

/-- The key-to-entry mapping held by a cache (Go `(*Cache).Peek`, which does not touch
the recency order). -/
def Cache.Peek (c : Cache) (key : String) : Option cacheValue := lookupEntry key c.evictList

/-! ## HTTP requests, responses and the outside world -/

/-- A (non-nil) `context.Context`: one supplied by the caller, or one derived from a
parent with `context.WithTimeout` (duration in nanoseconds). -/
inductive Context where
  | caller (id : Nat)
  | withTimeout (parent : Context) (d : Nat)
  deriving DecidableEq, Repr

/-- Go `context.Background()`. -/
def Context.Background : Context := .caller 0

/-- Go `time.Second`, in nanoseconds. -/
def Second : Nat := 1000000000

/-- A request header map. Only `Header.Set` is used on it and every key written by
`client.go` is already in canonical form, so a key holds a single value. -/
abbrev Header := List (String × String)

/-- The header map without its entry for `key` (Go `delete(h, key)`). -/
def Header.del (key : String) : Header → Header
  | [] => []
  | (k, v) :: rest => if k = key then Header.del key rest else (k, v) :: Header.del key rest

/-- The value the header map holds for `key`, if any (Go `h[key]`). -/
def Header.find (key : String) : Header → Option String
  | [] => none
  | (k, v) :: rest => if k = key then some v else Header.find key rest

/-- Go `Header.Set`. -/
def Header.Set (h : Header) (key value : String) : Header :=
  (key, value) :: Header.del key h

/-- Go `Header.Get` on a request header: the value under `key`, or the empty string. -/
def Header.Get (h : Header) (key : String) : String := (Header.find key h).getD ""

/-- Whether the header map has an entry for `key`. -/
def Header.Has (h : Header) (key : String) : Bool := (Header.find key h).isSome

/-- Go `http.Request`, as far as `GetWithContext` fills it in. -/
structure Request where
  ctx : Context
  Method : String
  URL : URL
  Header : Header
  deriving DecidableEq, Repr

/-- Go `http.Response`. `Header` is the response header map observed through
`resp.Header.Get`; `Body` is the outcome of `io.ReadAll(resp.Body)`, which on success
is never the nil slice. -/
structure Response where
  Status : String
  StatusCode : Int
  Header : String → String
  Body : Except String String

/-- Modelled from the spec: the record type `Target` of `model.go`, which is not among
the sources; a list of target strings plus a string-keyed label mapping. -/
structure Target where
  Targets : List String
  Labels : List (String × String)
  deriving DecidableEq, Repr

/-- Pure library functions whose code is outside the repository. -/
structure Env where
  /-- Go `url.Parse`. -/
  Parse : String → Except String URL
  /-- Go `json.Unmarshal(datab, &psd)` for `var psd []*Target`: the error, or the
  value of `psd` afterwards (`none` is the nil slice, a `none` element a nil pointer). -/
  Unmarshal : String → Except String (Option (List (Option Target)))
  /-- The package variable `version`. -/
  version : String
  /-- The helper `basicAuth` of `net/http` (base64 of `username:password`). -/
  basicAuth : String → String → String

/-- What the outside world answers during one call. -/
structure World where
  /-- Go `http.DefaultClient.Do`. -/
  Do : Request → Except String Response
  /-- Go `time.Now().Format(http.TimeFormat)`. -/
  Now : String

/-- Go `strings.LastIndex(s, c)` for a single byte `c`, scanning from position `i`:
the last position of `c`, or `-1`. -/
def lastIndexFrom (c : Char) (i : Nat) : List Char → Int
  | [] => -1
  | x :: rest =>
    if 0 ≤ lastIndexFrom c (i + 1) rest then lastIndexFrom c (i + 1) rest
    else if x = c then (i : Int) else -1

/-- Go `hasPort` of `net/http`: the last `:` comes after the last `]`. -/
def hasPort (s : String) : Bool :=
  decide (lastIndexFrom ']' 0 s.data < lastIndexFrom ':' 0 s.data)

/-- Go `removeEmptyPort`: strip a trailing `:` from a host that has a port. -/
def removeEmptyPort (host : String) : String :=
  if hasPort host then
    (if host.data.getLast? = some ':' then ⟨host.data.dropLast⟩ else host)
  else host

/-- Go `http.NewRequestWithContext` for a valid method, a non-nil context and
`http.NoBody`: it fails exactly when the URL does not parse. -/
def NewRequestWithContext (env : Env) (ctx : Context) (method url : String) :
    Except String Request :=
  match env.Parse url with
  | .error err => .error err
  | .ok u =>
    .ok { ctx := ctx, Method := method, URL := { u with Host := removeEmptyPort u.Host },
          Header := [] }

/-- Go `(*Request).SetBasicAuth`. -/
def Request.SetBasicAuth (env : Env) (r : Request) (username password : String) : Request :=
  { r with Header := r.Header.Set "Authorization" ("Basic " ++ env.basicAuth username password) }

/-- Go `r.Header.Set(key, value)` on a request. -/
def Request.HeaderSet (r : Request) (key value : String) : Request :=
  { r with Header := r.Header.Set key value }

/-! ## `client.go` -/

/-- The type `Client` of `client.go`; `none` is a nil pointer. -/
structure Client where
  url : Option URL := none
  cache : Option Cache := none
  login : String := ""
  password : String := ""
  deriving DecidableEq, Repr

/-- Go `NewClient`. -/
def NewClient (env : Env) (baseURL login password : String) : Client :=
  match env.Parse baseURL with
  | .error _ => {}
  | .ok uri =>
    if login = "" ∨ password = "" then {}
    else
      match lruNew 1000 with
      | .error _ => {}
      | .ok cache => { url := some uri, login := login, password := password, cache := some cache }

/-- The calls `GetWithContext` makes, in the order it makes them. -/
inductive Event where
  | cacheGet (key : String)
  | newRequest (method url : String)
  | send (req : Request)
  | readBody
  | cacheAdd (key : String) (value : cacheValue)
  | unmarshal (data : String)
  deriving DecidableEq, Repr

/-- What a call of `GetWithContext` returns and leaves behind: the two return values
(`none` is nil), the client with its cache after the call, and the calls made. -/
structure Outcome where
  targets : Option (List (Option Target))
  err : Option String
  client : Client
  trace : List Event
  deriving DecidableEq, Repr

/-- The key `GetWithContext` computes on lines 59-65: `urlTarget`. -/
def lookupURL (base : URL) (identifier : String) (jobOverride : List String) : String :=
  let cloned := base
  let job := match jobOverride with
    | [] => "node"
    | j :: _ => j
  let uri := cloned.JoinPath ("/" ++ job ++ "/" ++ identifier)
  uri.String

/-- Lines 68-83 of `GetWithContext`: the request for `urlTarget`, given the result
`(cachedData, cached)` of the cache lookup. -/
def buildRequest (env : Env) (p : Client) (ctx : Context) (urlTarget : String)
    (cachedData : cacheValue) (cached : Bool) : Except String Request :=
  let childCtx := Context.withTimeout ctx (10 * Second)
  match NewRequestWithContext env childCtx "GET" urlTarget with
  | .error err => .error err
  | .ok req =>
    let req := req.SetBasicAuth env p.login p.password
    let req :=
      if cached then
        let req := req.HeaderSet "If-Modified-Since" cachedData.cachedAt
        if cachedData.etag ≠ "" then req.HeaderSet "If-None-Match" cachedData.etag else req
      else req
    .ok (req.HeaderSet "User-Agent" ("Go-PSD-client/" ++ env.version))

/-- Lines 115-121 of `GetWithContext`: decode the payload; the two return values. -/
def decodePayload (env : Env) (datab : String) :
    Option (List (Option Target)) × Option String :=
  match env.Unmarshal datab with
  | .error err => (none, some err)
  | .ok psd => (psd, none)

/-- Lines 99-121 of `GetWithContext`, entered with the value `datab` and the trace so
far: read and cache the body when `datab` is nil, then decode. -/
def finishFetch (env : Env) (w : World) (p : Client) (cache : Cache) (urlTarget : String)
    (resp : Response) (datab : Option String) (trace : List Event) : Outcome :=
  match datab with
  | none =>
    match resp.Body with
    | .error err =>
      { targets := none, err := some err, client := { p with cache := some cache },
        trace := trace ++ [.readBody] }
    | .ok body =>
      let lastModified := resp.Header "Last-Modified"
      let lastModified := if lastModified = "" then w.Now else lastModified
      let value : cacheValue :=
        { data := some body, etag := resp.Header "ETag", cachedAt := lastModified }
      { targets := (decodePayload env body).1, err := (decodePayload env body).2,
        client := { p with cache := some (cache.Add urlTarget value) },
        trace := trace ++ [.readBody, .cacheAdd urlTarget value, .unmarshal body] }
  | some data =>
    { targets := (decodePayload env data).1, err := (decodePayload env data).2,
      client := { p with cache := some cache }, trace := trace ++ [.unmarshal data] }

/-- The zero value of `cacheValue`, which `Get` returns for a missing key. -/
def cacheValue.zero : cacheValue := { data := none, etag := "", cachedAt := "" }

/-- Go `(*Client).GetWithContext`. `none` is the run-time panic of calling `Get` on a
nil cache, which needs a client that has a URL but no cache. -/
def Client.GetWithContext (env : Env) (w : World) (p : Client) (ctx : Context)
    (identifier : String) (jobOverride : List String) : Option Outcome :=
  match p.url with
  | none => some { targets := none, err := none, client := p, trace := [] }
  | some base =>
    let urlTarget := lookupURL base identifier jobOverride
    match p.cache with
    | none => none
    | some cache0 =>
      let cachedData := ((cache0.Get urlTarget).1).getD cacheValue.zero
      let cached := ((cache0.Get urlTarget).1).isSome
      let cache := (cache0.Get urlTarget).2
      let trace := [Event.cacheGet urlTarget, Event.newRequest "GET" urlTarget]
      match buildRequest env p ctx urlTarget cachedData cached with
      | .error err =>
        some { targets := none, err := some err, client := { p with cache := some cache },
               trace := trace }
      | .ok req =>
        let trace := trace ++ [Event.send req]
        match w.Do req with
        | .error err =>
          some { targets := none, err := some err, client := { p with cache := some cache },
                 trace := trace }
        | .ok resp =>
          if resp.StatusCode = 304 ∧ cached then
            some (finishFetch env w p cache urlTarget resp cachedData.data trace)
          else if resp.StatusCode = 410 then
            some { targets := none, err := none, client := { p with cache := some cache },
                   trace := trace }
          else if resp.StatusCode ≠ 200 then
            some { targets := none, err := some ("HTTP error: " ++ resp.Status),
                   client := { p with cache := some cache }, trace := trace }
          else
            some (finishFetch env w p cache urlTarget resp none trace)

/-- The entry a client holds under `key`; a client without a cache holds none. -/
def Client.Peek (p : Client) (key : String) : Option cacheValue :=
  match p.cache with
  | none => none
  | some c => c.Peek key

/-- Go `(*Client).Get`. -/
def Client.Get (env : Env) (w : World) (p : Client) (identifier : String) : Option Outcome :=
  p.GetWithContext env w Context.Background identifier []

/-! ## Paths that need no cleaning and no escaping -/

/-- The bytes of the path `/s₁/s₂/…/sₙ` with the given elements. -/
def pathChars : List (List Char) → List Char
  | [] => []
  | s :: rest => '/' :: s ++ pathChars rest

/-- The path `/s₁/s₂/…/sₙ` with the given elements (the empty path for no element). -/
def slashPath (segs : List String) : String := ⟨pathChars (segs.map String.data)⟩

/-- A path element that `path.Clean` keeps and that is its own path escaping: not
empty, not `.` or `..`, without a slash and without a byte that `shouldEscape`. -/
def plainSegment (s : String) : Bool :=
  s.data ≠ [] && s.data ≠ ['.'] && s.data ≠ ['.', '.'] &&
    s.data.all (fun c => c ≠ '/' && !shouldEscape c .encodePath)

/-- What `plainSegment` says, on the bytes of the element. -/
def PlainChars (s : List Char) : Prop :=
  s ≠ [] ∧ s ≠ ['.'] ∧ s ≠ ['.', '.'] ∧ ∀ c ∈ s, c ≠ '/' ∧ shouldEscape c .encodePath = false

/-! ## Sequences of calls -/

/-- One call of `GetWithContext`: its arguments and what the world answers during it. -/
structure Call where
  world : World
  ctx : Context
  identifier : String
  jobOverride : List String

/-- The client after a sequence of `GetWithContext` calls (`none` if one of them
panics). -/
def runCalls (env : Env) : Client → List Call → Option Client
  | p, [] => some p
  | p, call :: rest =>
    match p.GetWithContext env call.world call.ctx call.identifier call.jobOverride with
    | none => none
    | some out => runCalls env out.client rest

/-- What holds of every client that `NewClient` and `GetWithContext` produce: a client
with a URL has a cache, and no cached payload is the nil slice. -/
def Client.WellFormed (p : Client) : Prop :=
  (p.url ≠ none → p.cache ≠ none) ∧ ∀ k v, p.Peek k = some v → v.data ≠ none

/-! ## Fixtures: the test server of `client_test.go` -/

/-- A stand-in for `url.Parse` on absolute `http://host/path` URLs without escapes,
query or fragment; everything else is rejected like a URL without a scheme. -/
def fixtureParse (s : String) : Except String URL :=
  match s.data with
  | 'h' :: 't' :: 't' :: 'p' :: ':' :: '/' :: '/' :: rest =>
    .ok { Scheme := "http", Host := ⟨rest.takeWhile (fun c => c ≠ '/')⟩,
          Path := ⟨rest.dropWhile (fun c => c ≠ '/')⟩ }
  | _ => .error "missing protocol scheme"

/-- The two records of `createMockData`. -/
def mockTargets : List (Option Target) :=
  [some { Targets := ["target1"], Labels := [("domain", "example.com")] },
   some { Targets := ["target2"], Labels := [("domain", "example.net")] }]

/-- The JSON text of `createMockData`. -/
def mockData : String :=
  "[\x7b\"targets\":[\"target1\"],\"labels\":\x7b\"domain\":\"example.com\"\x7d\x7d," ++
  "\x7b\"targets\":[\"target2\"],\"labels\":\x7b\"domain\":\"example.net\"\x7d\x7d]"

/-- A stand-in for `json.Unmarshal` on the payloads used below. -/
def fixtureUnmarshal (data : String) : Except String (Option (List (Option Target))) :=
  if data = mockData then .ok (some mockTargets)
  else if data = "[]" then .ok (some [])
  else if data = "null" then .ok none
  else .error "invalid character"

/-- The library functions used by the fixtures. -/
def fixtureEnv : Env :=
  { Parse := fixtureParse, Unmarshal := fixtureUnmarshal, version := "0.0.0-unknown",
    basicAuth := fun u p => u ++ ":" ++ p }

/-- A test server that answers every request with the given response. -/
def serverWorld (resp : Response) : World :=
  { Do := fun _ => .ok resp, Now := "Wed, 04 Nov 2026 10:00:00 GMT" }

/-- A world in which the transport fails. -/
def downWorld : World :=
  { Do := fun _ => .error "connection refused", Now := "Wed, 04 Nov 2026 10:00:00 GMT" }

/-- A response with the given status, headers `Last-Modified` and `ETag`, and body. -/
def mkResponse (code : Int) (status lastModified etag : String) (body : Except String String) :
    Response :=
  { Status := status, StatusCode := code,
    Header := fun k => if k = "Last-Modified" then lastModified else if k = "ETag" then etag else "",
    Body := body }

/-- The client of the tests: `NewClient(ts.URL, "user", "password")`. -/
def testClient : Client := NewClient fixtureEnv "http://example.com" "user" "password"

/-- The base URL of `testClient`. -/
def testBase : URL := { Scheme := "http", Host := "example.com" }

/-- The entry the cache-hit test stores before the call. -/
def testEntry : cacheValue :=
  { data := some mockData, etag := "\"mock-etag\"", cachedAt := "Wed, 04 Nov 2026 09:00:00 GMT" }

/-- The cache of the cache-hit test. -/
def testCache : Cache :=
  { size := 1000, evictList := [("http://example.com/node/test-id", testEntry)] }

/-- The request `testClient` sends for `test-id` while `testCache` is its cache. -/
def testRequest : Request :=
  { ctx := .withTimeout Context.Background (10 * Second), Method := "GET",
    URL := { Scheme := "http", Host := "example.com", Path := "/node/test-id" },
    Header := [("User-Agent", "Go-PSD-client/0.0.0-unknown"),
      ("If-None-Match", "\"mock-etag\""),
      ("If-Modified-Since", "Wed, 04 Nov 2026 09:00:00 GMT"),
      ("Authorization", "Basic user:password")] }

/-- The request `testClient` sends for `test-id` while nothing is cached. -/
def testRequestFresh : Request :=
  { ctx := .withTimeout Context.Background (10 * Second), Method := "GET",
    URL := { Scheme := "http", Host := "example.com", Path := "/node/test-id" },
    Header := [("User-Agent", "Go-PSD-client/0.0.0-unknown"),
      ("Authorization", "Basic user:password")] }

/-- The identifier `xx…x` of length `n`. -/
def fillIdentifier (n : Nat) : String := ⟨List.replicate n 'x'⟩

/-- The lookup URL of `testClient` for `fillIdentifier n`. -/
def fillUrl (n : Nat) : String := "http://example.com/node/" ++ fillIdentifier n

/-- A test server that answers 200 with an empty list and no validators. -/
def okWorld : World := serverWorld (mkResponse 200 "200 OK" "" "" (.ok "[]"))

/-- The entry cached from an answer of `okWorld`. -/
def fillValue : cacheValue :=
  { data := some "[]", etag := "", cachedAt := "Wed, 04 Nov 2026 10:00:00 GMT" }

/-- A call for `fillIdentifier n`, answered by `okWorld`. -/
def fillCall (n : Nat) : Call :=
  { world := okWorld, ctx := Context.Background, identifier := fillIdentifier n,
    jobOverride := [] }

/-- The calls for the identifiers of length `n`, `n - 1`, …, `1`, in this order. -/
def fillCalls : Nat → List Call
  | 0 => []
  | n + 1 => fillCall (n + 1) :: fillCalls n

/-- The entries these calls leave in the cache, most recently used first. -/
def fillEntries : Nat → List (String × cacheValue)
  | 0 => []
  | n + 1 => fillEntries n ++ [(fillUrl (n + 1), fillValue)]

/-- The client of the tests with the given eviction list. -/
def clientWith (entries : List (String × cacheValue)) : Client :=
  { url := some testBase, cache := some { size := 1000, evictList := entries },
    login := "user", password := "password" }

/-- The cache-miss call of the tests, answered with the validators of `testEntry`. -/
def cacheMissCall : Call :=
  { world := serverWorld (mkResponse 200 "200 OK" "Wed, 04 Nov 2026 09:00:00 GMT"
      "\"mock-etag\"" (.ok mockData)),
    ctx := Context.Background, identifier := "test-id", jobOverride := [] }

/-! ## Lemmas on the cache -/

theorem lookupEntry_removeEntry_ne {k key : String} (h : k ≠ key)
    (l : List (String × cacheValue)) :
    lookupEntry k (removeEntry key l) = lookupEntry k l := by
  induction l with
  | nil => rfl
  | cons kv rest ih =>
    obtain ⟨k', v⟩ := kv
    by_cases h1 : k' = key
    · subst h1
      have h2 : ¬ k' = k := fun e => h e.symm
      simp [removeEntry, lookupEntry, h2]
    · by_cases h2 : k' = k
      · subst h2
        simp [removeEntry, lookupEntry, h1]
      · simp [removeEntry, lookupEntry, h1, h2, ih]

theorem lookupEntry_dropLast {k : String} {x : cacheValue} :
    ∀ l : List (String × cacheValue), lookupEntry k l.dropLast = some x → lookupEntry k l = some x
  | [] => by simp [lookupEntry]
  | [_] => by simp [lookupEntry]
  | (k', v) :: b :: rest => by
    by_cases h : k' = k
    · simp [List.dropLast, lookupEntry, h]
    · simp only [List.dropLast, lookupEntry, h, if_false]
      exact lookupEntry_dropLast (b :: rest)

theorem Cache.Get_fst (c : Cache) (key : String) : (c.Get key).1 = c.Peek key := by
  unfold Cache.Get Cache.Peek
  cases lookupEntry key c.evictList <;> rfl

theorem Cache.Get_size (c : Cache) (key : String) : (c.Get key).2.size = c.size := by
  unfold Cache.Get
  cases lookupEntry key c.evictList <;> rfl

theorem removeEntry_length {key : String} :
    ∀ (l : List (String × cacheValue)) (v : cacheValue), lookupEntry key l = some v →
      (removeEntry key l).length + 1 = l.length
  | [], _, h => by simp [lookupEntry] at h
  | (k', x) :: rest, v, h => by
    by_cases hk : k' = key
    · simp [removeEntry, hk]
    · simp only [lookupEntry, hk, if_false] at h
      simp only [removeEntry, hk, if_false, List.length_cons]
      rw [removeEntry_length rest v h]

theorem Cache.Get_length (c : Cache) (key : String) :
    (c.Get key).2.evictList.length = c.evictList.length := by
  unfold Cache.Get
  cases h : lookupEntry key c.evictList with
  | none => rfl
  | some v => simp only [List.length_cons]; exact removeEntry_length _ v h

theorem Cache.Get_peek (c : Cache) (key k : String) : (c.Get key).2.Peek k = c.Peek k := by
  unfold Cache.Get Cache.Peek
  cases h : lookupEntry key c.evictList with
  | none => rfl
  | some v =>
    by_cases hk : k = key
    · subst hk
      simp [lookupEntry, h]
    · have hk' : ¬ key = k := fun e => hk e.symm
      simp [lookupEntry, hk', lookupEntry_removeEntry_ne hk]

theorem Cache.Add_size (c : Cache) (key : String) (v : cacheValue) :
    (c.Add key v).size = c.size := by
  unfold Cache.Add
  cases lookupEntry key c.evictList with
  | none => simp only []; split <;> rfl
  | some _ => rfl

theorem Cache.Add_peek_self (c : Cache) (key : String) (v : cacheValue) (h : 0 < c.size) :
    (c.Add key v).Peek key = some v := by
  unfold Cache.Add Cache.Peek
  cases lookupEntry key c.evictList with
  | some _ => simp [lookupEntry]
  | none =>
    simp only []
    split
    · rename_i hlt
      cases hl : c.evictList with
      | nil => simp [hl] at hlt; omega
      | cons b rest => simp [List.dropLast, lookupEntry]
    · simp [lookupEntry]

theorem Cache.Add_peek_self_eq (c : Cache) (key : String) (v x : cacheValue)
    (h : (c.Add key v).Peek key = some x) : x = v := by
  unfold Cache.Add Cache.Peek at h
  cases hl : lookupEntry key c.evictList with
  | some _ =>
    simp only [hl, lookupEntry, if_true, Option.some.injEq] at h
    exact h.symm
  | none =>
    simp only [hl] at h
    split at h
    · have := lookupEntry_dropLast _ h
      simp only [lookupEntry, if_true, Option.some.injEq] at this
      exact this.symm
    · simp only [lookupEntry, if_true, Option.some.injEq] at h
      exact h.symm

theorem Cache.Add_peek_other (c : Cache) (key k : String) (v x : cacheValue) (hk : k ≠ key)
    (h : (c.Add key v).Peek k = some x) : c.Peek k = some x := by
  have hk' : ¬ key = k := fun e => hk e.symm
  unfold Cache.Add Cache.Peek at *
  cases hl : lookupEntry key c.evictList with
  | some _ =>
    simp only [hl, lookupEntry, hk', if_false, lookupEntry_removeEntry_ne hk] at h
    exact h
  | none =>
    simp only [hl] at h
    split at h
    · have := lookupEntry_dropLast _ h
      simpa [lookupEntry, hk'] using this
    · simpa [lookupEntry, hk'] using h

theorem Cache.Add_peek_other_eq (c : Cache) (key k : String) (v : cacheValue) (hk : k ≠ key)
    (h : c.Peek key ≠ none ∨ c.evictList.length < c.size) :
    (c.Add key v).Peek k = c.Peek k := by
  have hk' : ¬ key = k := fun e => hk e.symm
  unfold Cache.Add Cache.Peek at *
  cases hl : lookupEntry key c.evictList with
  | some _ => simp [lookupEntry, hk', lookupEntry_removeEntry_ne hk]
  | none =>
    have hlt : ¬ c.size < ((key, v) :: c.evictList).length := by
      rcases h with h | h
      · exact absurd hl h
      · simp only [List.length_cons]; omega
    simp only [hlt, if_false, lookupEntry, hk']

theorem Cache.Get_of_peek_none (c : Cache) (key : String) (h : c.Peek key = none) :
    (c.Get key).2 = c := by
  unfold Cache.Peek at h
  unfold Cache.Get
  simp only [h]

theorem Cache.Add_peek_other_full (c : Cache) (key k : String) (v : cacheValue) (hk : k ≠ key)
    (hnone : c.Peek key = none) (hsize : 0 < c.size) (hfull : c.size ≤ c.evictList.length) :
    (c.Add key v).Peek k = lookupEntry k c.evictList.dropLast := by
  have hk' : ¬ key = k := fun e => hk e.symm
  unfold Cache.Peek at hnone
  unfold Cache.Add Cache.Peek
  simp only [hnone, List.length_cons]
  rw [if_pos (by omega)]
  cases hl : c.evictList with
  | nil => rw [hl] at hfull; simp at hfull; omega
  | cons a rest => simp only [List.dropLast_cons₂, lookupEntry, hk', if_false]

/-! ## `path.Clean` on paths that are already clean -/

theorem cleanLoop_nil (rooted copying : Bool) (out : List Char) (dotdot : Nat) :
    cleanLoop rooted copying [] out dotdot = out := by
  cases copying <;> rfl

theorem cleanLoop_true_cons (rooted : Bool) (c : Char) (rest out : List Char) (dotdot : Nat) :
    cleanLoop rooted true (c :: rest) out dotdot =
      if c = '/' then cleanLoop rooted false rest out dotdot
      else cleanLoop rooted true rest (out ++ [c]) dotdot := by
  rw [cleanLoop]

theorem cleanLoop_false_unfold (rooted : Bool) (c : Char) (rest out : List Char)
    (dotdot : Nat) :
    cleanLoop rooted false (c :: rest) out dotdot =
    if c = '/' then
      cleanLoop rooted false rest out dotdot
    else if c = '.' ∧ (rest = [] ∨ rest.head? = some '/') then
      cleanLoop rooted false rest out dotdot
    else
      match rest with
      | [] => cleanLoop rooted true [] (cleanAddSlash rooted out ++ [c]) dotdot
      | d :: rest2 =>
        if c = '.' ∧ d = '.' ∧ (rest2 = [] ∨ rest2.head? = some '/') then
          cleanLoop rooted false rest2 (cleanDotDot rooted out dotdot).1
            (cleanDotDot rooted out dotdot).2
        else
          cleanLoop rooted true (d :: rest2) (cleanAddSlash rooted out ++ [c]) dotdot := by
  cases rest <;> rfl

theorem cleanLoop_false_nil (rooted : Bool) (c : Char) (out : List Char) (dotdot : Nat)
    (hc : c ≠ '/') (hdot : c ≠ '.') :
    cleanLoop rooted false [c] out dotdot = cleanAddSlash rooted out ++ [c] := by
  rw [cleanLoop_false_unfold]
  simp only [if_neg hc, hdot, false_and, if_false, cleanLoop_nil]

theorem cleanLoop_false_cons (rooted : Bool) (c d : Char) (rest2 out : List Char) (dotdot : Nat)
    (hc : c ≠ '/') (hsecond : ¬ (c = '.' ∧ d = '/'))
    (hthird : ¬ (c = '.' ∧ d = '.' ∧ (rest2 = [] ∨ rest2.head? = some '/'))) :
    cleanLoop rooted false (c :: d :: rest2) out dotdot =
      cleanLoop rooted true (d :: rest2) (cleanAddSlash rooted out ++ [c]) dotdot := by
  rw [cleanLoop_false_unfold]
  have h2 : ¬ (c = '.' ∧ (d :: rest2 = [] ∨ (d :: rest2).head? = some '/')) := by
    rintro ⟨h1, h | h⟩
    · cases h
    · simp only [List.head?_cons, Option.some.injEq] at h
      exact hsecond ⟨h1, h⟩
  simp only [if_neg hc, if_neg h2, if_neg hthird]

theorem cleanLoop_slash (rooted : Bool) (r out : List Char) (dotdot : Nat) :
    cleanLoop rooted false ('/' :: r) out dotdot = cleanLoop rooted false r out dotdot := by
  rw [cleanLoop_false_unfold, if_pos rfl]

theorem boundary_cases {r : List Char} (hr : r = [] ∨ r.head? = some '/') :
    r = [] ∨ ∃ r', r = '/' :: r' := by
  rcases hr with h | h
  · exact Or.inl h
  · cases r with
    | nil => exact Or.inl rfl
    | cons a r' =>
      simp only [List.head?_cons, Option.some.injEq] at h
      exact Or.inr ⟨r', by rw [h]⟩

/-- The copying loop runs to the end of the path element. -/
theorem cleanLoop_copy (rooted : Bool) (r : List Char) (dotdot : Nat)
    (hr : r = [] ∨ r.head? = some '/') :
    ∀ (s out : List Char), (∀ c ∈ s, c ≠ '/') →
      cleanLoop rooted true (s ++ r) out dotdot = cleanLoop rooted false r (out ++ s) dotdot
  | [], out, _ => by
    rcases boundary_cases hr with h | ⟨r', h⟩
    · subst h; simp [cleanLoop_nil]
    · subst h
      rw [List.nil_append, List.append_nil, cleanLoop_true_cons, if_pos rfl, cleanLoop_slash]
  | c :: s, out, hs => by
    have hc : c ≠ '/' := hs c (List.mem_cons_self _ _)
    have ih := cleanLoop_copy rooted r dotdot hr s (out ++ [c])
      (fun x hx => hs x (List.mem_cons_of_mem _ hx))
    rw [List.cons_append, cleanLoop_true_cons, if_neg hc, ih, List.append_assoc]
    rfl

/-- A path element other than `.` and `..` is copied to the output, after a slash when
one is needed. -/
theorem cleanLoop_segment (rooted : Bool) (s r out : List Char) (dotdot : Nat)
    (hne : s ≠ []) (hdot : s ≠ ['.']) (hdotdot : s ≠ ['.', '.'])
    (hs : ∀ c ∈ s, c ≠ '/') (hr : r = [] ∨ r.head? = some '/') :
    cleanLoop rooted false (s ++ r) out dotdot =
      cleanLoop rooted false r (cleanAddSlash rooted out ++ s) dotdot := by
  cases s with
  | nil => exact absurd rfl hne
  | cons c s1 =>
    have hc : c ≠ '/' := hs c (List.mem_cons_self _ _)
    have hs1 : ∀ x ∈ s1, x ≠ '/' := fun x hx => hs x (List.mem_cons_of_mem _ hx)
    have hcopy := cleanLoop_copy rooted r dotdot hr s1 (cleanAddSlash rooted out ++ [c]) hs1
    rw [List.append_assoc] at hcopy
    cases s1 with
    | nil =>
      have hc' : c ≠ '.' := fun h => hdot (by rw [h])
      rcases boundary_cases hr with h | ⟨r', h⟩
      · subst h
        rw [List.append_nil, cleanLoop_false_nil rooted c out dotdot hc hc', cleanLoop_nil]
      · subst h
        rw [List.cons_append, List.nil_append,
          cleanLoop_false_cons rooted c '/' r' out dotdot hc (fun h => hc' h.1)
            (fun h => absurd h.2.1 (by decide))]
        exact hcopy
    | cons d s2 =>
      have hd : d ≠ '/' := hs1 d (List.mem_cons_self _ _)
      have hthird : ¬ (c = '.' ∧ d = '.' ∧ (s2 ++ r = [] ∨ (s2 ++ r).head? = some '/')) := by
        rintro ⟨h1, h2, h3⟩
        cases s2 with
        | nil => exact hdotdot (by rw [h1, h2])
        | cons e s3 =>
          rcases h3 with h | h
          · cases h
          · simp only [List.cons_append, List.head?_cons, Option.some.injEq] at h
            exact hs1 e (List.mem_cons_of_mem _ (List.mem_cons_self _ _)) h
      rw [List.cons_append, List.cons_append,
        cleanLoop_false_cons rooted c d (s2 ++ r) out dotdot hc (fun h => hd h.2) hthird]
      exact hcopy

theorem plainSegment_chars {s : String} (h : plainSegment s = true) : PlainChars s.data := by
  unfold plainSegment at h
  simp only [Bool.and_eq_true, decide_eq_true_eq, List.all_eq_true, Bool.not_eq_true',
    ne_eq] at h
  obtain ⟨⟨⟨h1, h2⟩, h3⟩, h4⟩ := h
  exact ⟨h1, h2, h3, fun c hc => ⟨(h4 c hc).1, (h4 c hc).2⟩⟩

theorem pathChars_boundary (segs : List (List Char)) (r : List Char)
    (hr : r = [] ∨ r.head? = some '/') :
    pathChars segs ++ r = [] ∨ (pathChars segs ++ r).head? = some '/' := by
  cases segs with
  | nil => simpa [pathChars] using hr
  | cons s rest => right; simp [pathChars]

/-- The loop of `path.Clean` on a run of plain elements of a rooted path. -/
theorem cleanLoop_segments (dotdot : Nat) (r : List Char) (hr : r = [] ∨ r.head? = some '/') :
    ∀ (segs : List (List Char)) (out : List Char), (∀ s ∈ segs, PlainChars s) →
      cleanLoop true false (pathChars segs ++ r) out dotdot =
        cleanLoop true false r
          (segs.foldl (fun o s => cleanAddSlash true o ++ s) out) dotdot
  | [], out, _ => by simp [pathChars]
  | s :: rest, out, h => by
    obtain ⟨h1, h2, h3, h4⟩ := h s (List.mem_cons_self _ _)
    have ih := cleanLoop_segments dotdot r hr rest (cleanAddSlash true out ++ s)
      (fun x hx => h x (List.mem_cons_of_mem _ hx))
    have hseg := cleanLoop_segment true s (pathChars rest ++ r) out dotdot h1 h2 h3
      (fun c hc => (h4 c hc).1) (pathChars_boundary rest r hr)
    simp only [pathChars, List.cons_append, List.append_assoc, List.foldl_cons]
    rw [cleanLoop_slash, hseg, ih]

theorem foldl_addSlash_long :
    ∀ (segs : List (List Char)) (out : List Char), 2 ≤ out.length →
      segs.foldl (fun o s => cleanAddSlash true o ++ s) out = out ++ pathChars segs
  | [], out, _ => by simp [pathChars]
  | s :: rest, out, h => by
    have h1 : cleanAddSlash true out = out ++ ['/'] := by
      unfold cleanAddSlash
      have : out.length ≠ 1 := by omega
      simp [this]
    rw [List.foldl_cons, h1, foldl_addSlash_long rest _ (by simp; omega)]
    simp [pathChars]

theorem foldl_addSlash_root (s : List Char) (rest : List (List Char)) (hs : s ≠ []) :
    (s :: rest).foldl (fun o s => cleanAddSlash true o ++ s) ['/'] = pathChars (s :: rest) := by
  have h1 : cleanAddSlash true ['/'] = ['/'] := by simp [cleanAddSlash]
  have hlen : 2 ≤ (['/'] ++ s).length := by
    cases s with
    | nil => exact absurd rfl hs
    | cons a t => simp
  rw [List.foldl_cons, h1, foldl_addSlash_long rest _ hlen]
  simp [pathChars]

theorem cleanLoop_join (segs more : List (List Char)) (s : List Char)
    (hsegs : ∀ x ∈ segs, PlainChars x) (hs : PlainChars s) (hmore : ∀ x ∈ more, PlainChars x) :
    cleanLoop true false (pathChars segs ++ '/' :: pathChars (s :: more)) ['/'] 1 =
      pathChars (segs ++ s :: more) := by
  have hall : ∀ x ∈ s :: more, PlainChars x := by
    intro x hx
    rcases List.mem_cons.mp hx with h | h
    · rw [h]; exact hs
    · exact hmore x h
  have htail := cleanLoop_segments 1 [] (Or.inl rfl) (s :: more)
    (segs.foldl (fun o s => cleanAddSlash true o ++ s) ['/']) hall
  rw [List.append_nil, cleanLoop_nil] at htail
  rw [cleanLoop_segments 1 ('/' :: pathChars (s :: more)) (Or.inr rfl) segs ['/'] hsegs,
    cleanLoop_slash, htail,
    ← List.foldl_append]
  cases segs with
  | nil => exact foldl_addSlash_root s more hs.1
  | cons a rest =>
    exact foldl_addSlash_root a (rest ++ s :: more) (hsegs a (List.mem_cons_self _ _)).1

theorem cleanChars_rooted (z : List Char) (h : cleanLoop true false ('/' :: z) ['/'] 1 ≠ []) :
    cleanChars ('/' :: z) = cleanLoop true false ('/' :: z) ['/'] 1 := by
  rw [cleanLoop_slash] at h ⊢
  simp only [cleanChars, if_true]
  rw [if_neg (fun hl => h (List.length_eq_zero.mp hl))]

/-- Go `path.Clean` leaves a rooted path of plain elements as it is, and removes the
doubled slashes that `path.Join` puts between two such paths. -/
theorem cleanChars_join (segs more : List (List Char)) (s : List Char)
    (hsegs : ∀ x ∈ segs, PlainChars x) (hs : PlainChars s) (hmore : ∀ x ∈ more, PlainChars x) :
    cleanChars (pathChars segs ++ '/' :: pathChars (s :: more)) =
      pathChars (segs ++ s :: more) ∧
    cleanChars ('/' :: '/' :: pathChars (s :: more)) = pathChars (s :: more) := by
  have hjoin := cleanLoop_join segs more s hsegs hs hmore
  have hjoin0 := cleanLoop_join [] more s (fun _ h => by cases h) hs hmore
  simp only [pathChars, List.nil_append] at hjoin0
  constructor
  · cases segs with
    | nil =>
      simp only [pathChars, List.nil_append] at hjoin ⊢
      rw [cleanChars_rooted _ (by rw [hjoin]; simp), hjoin]
    | cons a rest =>
      simp only [pathChars, List.cons_append] at hjoin ⊢
      rw [cleanChars_rooted _ (by rw [hjoin]; simp), hjoin]
  · have h2 : cleanLoop true false ('/' :: '/' :: pathChars (s :: more)) ['/'] 1 =
        pathChars (s :: more) := by
      rw [cleanLoop_slash]
      simpa only [pathChars] using hjoin0
    rw [cleanChars_rooted _ (by rw [h2]; simp [pathChars]), h2]

/-! ## Escaping of paths that need none -/

theorem escapeChars_plain :
    ∀ l : List Char, (∀ c ∈ l, shouldEscape c .encodePath = false) →
      escapeChars .encodePath l = l
  | [], _ => rfl
  | c :: cs, h => by
    have hc := h c (List.mem_cons_self _ _)
    have ih := escapeChars_plain cs (fun x hx => h x (List.mem_cons_of_mem _ hx))
    simp [escapeChars, hc, ih]

theorem not_percent_of_plain {c : Char} (h : shouldEscape c .encodePath = false) : c ≠ '%' := by
  intro hc
  rw [hc] at h
  exact absurd h (by decide)

theorem unescapeCheck_plain :
    ∀ l : List Char, (∀ c ∈ l, c ≠ '%') → unescapeCheck .encodePath l = none
  | [], _ => rfl
  | c :: cs, h => by
    have hc := h c (List.mem_cons_self _ _)
    have ih := unescapeCheck_plain cs (fun x hx => h x (List.mem_cons_of_mem _ hx))
    rw [unescapeCheck]
    · simp [ih]
    · exact hc

theorem unescapeChars_plain :
    ∀ l : List Char, (∀ c ∈ l, c ≠ '%') → unescapeChars .encodePath l = l
  | [], _ => rfl
  | c :: cs, h => by
    have hc := h c (List.mem_cons_self _ _)
    have ih := unescapeChars_plain cs (fun x hx => h x (List.mem_cons_of_mem _ hx))
    rw [unescapeChars]
    · simp [ih]
    · exact hc

theorem escape_plain (s : String) (h : ∀ c ∈ s.data, shouldEscape c .encodePath = false) :
    escape s .encodePath = s := by
  unfold escape
  rw [escapeChars_plain _ h]

theorem unescape_plain (s : String) (h : ∀ c ∈ s.data, shouldEscape c .encodePath = false) :
    unescape s .encodePath = .ok s := by
  unfold unescape
  rw [unescapeCheck_plain _ (fun c hc => not_percent_of_plain (h c hc)),
    unescapeChars_plain _ (fun c hc => not_percent_of_plain (h c hc))]

theorem pathChars_plain :
    ∀ segs : List (List Char), (∀ s ∈ segs, PlainChars s) →
      ∀ c ∈ pathChars segs, shouldEscape c .encodePath = false
  | [], _, c, hc => by simp [pathChars] at hc
  | s :: rest, h, c, hc => by
    rw [pathChars, List.cons_append, List.mem_cons, List.mem_append] at hc
    rcases hc with hc | hc | hc
    · rw [hc]; decide
    · exact ((h s (List.mem_cons_self _ _)).2.2.2 c hc).2
    · exact pathChars_plain rest (fun x hx => h x (List.mem_cons_of_mem _ hx)) c hc

theorem pathChars_append (a b : List (List Char)) :
    pathChars (a ++ b) = pathChars a ++ pathChars b := by
  induction a with
  | nil => rfl
  | cons s rest ih => simp [pathChars, ih]

/-- Go `setPath` with a path that needs no escaping. -/
theorem setPath_plain (u : URL) (p : String)
    (h : ∀ c ∈ p.data, shouldEscape c .encodePath = false) :
    u.setPath p = { u with Path := p, RawPath := "" } := by
  unfold URL.setPath
  rw [unescape_plain p h]
  simp only [escape_plain p h, if_true]

/-- Go `EscapedPath` of a URL without `RawPath` whose path needs no escaping. -/
theorem EscapedPath_plain (u : URL) (hraw : u.RawPath = "")
    (h : ∀ c ∈ u.Path.data, shouldEscape c .encodePath = false) :
    u.EscapedPath = u.Path := by
  unfold URL.EscapedPath
  simp only [hraw, ne_eq, not_true_eq_false, false_and, if_false, escape_plain u.Path h]
  split
  · rename_i hstar; exact hstar.symm
  · rfl

/-! ## `JoinPath` and `String` on a base URL with a clean path -/

theorem Join_pair (a b : String) (ha : a ≠ "") :
    Join [a, b] = ⟨cleanChars (a.data ++ '/' :: b.data)⟩ := by
  have hdata : a.data ≠ [] := fun h => ha (String.ext h)
  have hlen : 0 < a.data.length := List.length_pos.mpr hdata
  have hsum : ¬ ([a, b].map String.length).sum = 0 := by
    simp only [List.map_cons, List.map_nil, List.sum_cons, List.sum_nil, String.length]
    omega
  unfold Join
  rw [if_neg hsum]
  simp only [Clean, joinBuf, ha, ne_eq, not_false_eq_true, or_true, if_true, List.length_nil,
    Nat.lt_irrefl, if_false, List.nil_append, hlen, true_or, List.append_assoc,
    List.singleton_append]

theorem getLast?_append_plain (l s : List Char) (hne : s ≠ []) (hs : ∀ c ∈ s, c ≠ '/') :
    (l ++ s).getLast? ≠ some '/' := by
  rw [List.getLast?_append_of_ne_nil _ hne]
  intro h
  exact hs '/' (List.mem_of_getLast?_eq_some h) rfl

theorem slashPath_plain (segs : List String) (hsegs : ∀ s ∈ segs, plainSegment s = true) :
    ∀ x ∈ segs.map String.data, PlainChars x := by
  intro x hx
  obtain ⟨s, hs, rfl⟩ := List.mem_map.mp hx
  exact plainSegment_chars (hsegs s hs)

theorem JoinPath_plain (base : URL) (segs : List String) (job identifier : String)
    (hraw : base.RawPath = "") (hpath : base.Path = slashPath segs)
    (hsegs : ∀ s ∈ segs, plainSegment s = true) (hjob : plainSegment job = true)
    (hid : plainSegment identifier = true) :
    base.JoinPath ("/" ++ job ++ "/" ++ identifier) =
      { base with
        Path := if segs = [] then job ++ "/" ++ identifier
                else slashPath segs ++ "/" ++ job ++ "/" ++ identifier,
        RawPath := "" } := by
  have hS := slashPath_plain segs hsegs
  have hJ := plainSegment_chars hjob
  have hI := plainSegment_chars hid
  have hP : ∀ c ∈ base.Path.data, shouldEscape c .encodePath = false := by
    rw [hpath]; exact pathChars_plain _ hS
  have hep := EscapedPath_plain base hraw hP
  have helem : ("/" ++ job ++ "/" ++ identifier).data = pathChars [job.data, identifier.data] := by
    simp [pathChars]
  have hlast : ¬ ("/" ++ job ++ "/" ++ identifier).data.getLast? = some '/' := by
    simp only [String.data_append]
    exact getLast?_append_plain _ _ hI.1 (fun c hc => (hI.2.2.2 c hc).1)
  obtain ⟨hclean, hclean0⟩ := cleanChars_join (segs.map String.data) [identifier.data] job.data
    hS hJ (fun x hx => by rw [List.mem_singleton.mp hx]; exact hI)
  have hplainE : ∀ c ∈ pathChars [job.data, identifier.data],
      shouldEscape c .encodePath = false :=
    pathChars_plain [job.data, identifier.data] (fun x hx => by
      rcases List.mem_cons.mp hx with h | h
      · rw [h]; exact hJ
      · rw [List.mem_singleton.mp h]; exact hI)
  unfold URL.JoinPath
  simp only [hep, hlast, false_and, if_false]
  cases segs with
  | nil =>
    have h0 : base.Path = "" := by rw [hpath]; rfl
    have hj : Join ["/" ++ "", "/" ++ job ++ "/" ++ identifier] =
        ⟨pathChars [job.data, identifier.data]⟩ := by
      rw [Join_pair _ _ (by decide), helem]
      exact congrArg String.mk hclean0
    rw [h0, hj, if_pos (by decide)]
    have hp : (⟨List.drop 1 (pathChars [job.data, identifier.data])⟩ : String) =
        job ++ "/" ++ identifier := by
      apply String.ext
      simp [pathChars]
    rw [hp, setPath_plain]
    · simp only [if_true]
    · intro c hc
      apply hplainE
      rw [← hp] at hc
      exact List.mem_of_mem_drop hc
  | cons a rest =>
    have hne : base.Path ≠ "" := by
      rw [hpath]; intro h
      have := congrArg String.data h
      simp [slashPath, pathChars] at this
    have hhead : base.Path.data.head? = some '/' := by
      rw [hpath]; simp [slashPath, pathChars]
    have hj : Join [base.Path, "/" ++ job ++ "/" ++ identifier] =
        slashPath (a :: rest) ++ "/" ++ job ++ "/" ++ identifier := by
      rw [Join_pair _ _ hne, helem, hpath]
      apply String.ext
      simp only [slashPath, String.data_append]
      rw [hclean, pathChars_append]
      simp [pathChars]
    rw [if_neg (not_not.mpr hhead), hj, setPath_plain]
    · simp only [if_false, reduceCtorEq]
    · intro c hc
      have hd : (slashPath (a :: rest) ++ "/" ++ job ++ "/" ++ identifier).data =
          pathChars ((a :: rest).map String.data) ++ pathChars [job.data, identifier.data] := by
        simp [slashPath, pathChars]
      rw [hd, List.mem_append] at hc
      rcases hc with h | h
      · exact pathChars_plain _ hS c h
      · exact hplainE c h

theorem append_ne_empty_right (a b : String) (hb : b ≠ "") : a ++ b ≠ "" := by
  intro h
  have := congrArg String.data h
  simp only [String.data_append, List.append_eq_nil] at this
  exact hb (String.ext this.2)

theorem append_ne_empty_left (a b : String) (ha : a ≠ "") : a ++ b ≠ "" := by
  intro h
  have := congrArg String.data h
  simp only [String.data_append, List.append_eq_nil] at this
  exact ha (String.ext this.1)

/-- Go `String` of a URL with a host and without opaque part, query or fragment: the
scheme and authority, a slash if the escaped path does not start with one, and the
escaped path. -/
theorem urlString_of_host (u : URL) (hopq : u.Opaque = "") (hhost : u.Host ≠ "")
    (hquery : u.RawQuery = "") (hforce : u.ForceQuery = false) (hfrag : u.Fragment = "") :
    u.String =
      ((if u.Scheme ≠ "" then u.Scheme ++ ":" else "") ++
        ("//" ++ (match u.User with
          | some ui => ui.String ++ "@"
          | none => "") ++ escape u.Host .encodeHost)) ++
      (if u.EscapedPath ≠ "" ∧ u.EscapedPath.data.head? ≠ some '/' then "/" else "") ++
      u.EscapedPath := by
  unfold URL.String
  simp only [hopq, hhost, hquery, hforce, hfrag, ne_eq, not_true_eq_false, if_false,
    not_false_eq_true, true_or, or_true, if_true, false_and, and_false, and_true,
    Bool.false_eq_true, or_self]
  generalize hA : ((if ¬u.Scheme = "" then u.Scheme ++ ":" else "") ++
    (("//" ++ match u.User with
        | some ui => ui.String ++ "@"
        | none => "") ++ escape u.Host .encodeHost)) = A
  have hAne : A ≠ "" := by
    rw [← hA]
    exact append_ne_empty_right _ _
      (append_ne_empty_left _ _ (append_ne_empty_left _ _ (by decide)))
  by_cases hc : ¬u.EscapedPath = "" ∧ ¬u.EscapedPath.data.head? = some '/'
  · simp only [if_pos hc]
    rw [if_neg (fun h => append_ne_empty_left _ _ hAne h.1)]
  · simp only [if_neg hc]
    rw [if_neg (fun h => hAne h.1), String.append_empty]

theorem lookupURL_headD (base : URL) (identifier : String) (jobOverride : List String) :
    lookupURL base identifier jobOverride =
      (base.JoinPath ("/" ++ jobOverride.headD "node" ++ "/" ++ identifier)).String := by
  cases jobOverride <;> rfl

theorem urlString_rooted (u : URL) (ep : String) (hopq : u.Opaque = "")
    (hhost : u.Host ≠ "") (hquery : u.RawQuery = "") (hforce : u.ForceQuery = false)
    (hfrag : u.Fragment = "") (hep : u.EscapedPath = ep)
    (hroot : ep = "" ∨ ep.data.head? = some '/') :
    u.String =
      ((if u.Scheme ≠ "" then u.Scheme ++ ":" else "") ++
        ("//" ++ (match u.User with
          | some ui => ui.String ++ "@"
          | none => "") ++ escape u.Host .encodeHost)) ++ ep := by
  have hcond : ¬ (ep ≠ "" ∧ ep.data.head? ≠ some '/') := by
    rintro ⟨h1, h2⟩
    rcases hroot with h | h
    · exact h1 h
    · exact h2 h
  rw [urlString_of_host u hopq hhost hquery hforce hfrag, hep, if_neg hcond,
    String.append_empty]

theorem urlString_rootless (u : URL) (ep : String) (hopq : u.Opaque = "")
    (hhost : u.Host ≠ "") (hquery : u.RawQuery = "") (hforce : u.ForceQuery = false)
    (hfrag : u.Fragment = "") (hep : u.EscapedPath = ep)
    (hne : ep ≠ "") (hhead : ep.data.head? ≠ some '/') :
    u.String =
      ((if u.Scheme ≠ "" then u.Scheme ++ ":" else "") ++
        ("//" ++ (match u.User with
          | some ui => ui.String ++ "@"
          | none => "") ++ escape u.Host .encodeHost)) ++ "/" ++ ep := by
  have hcond : ep ≠ "" ∧ ep.data.head? ≠ some '/' := ⟨hne, hhead⟩
  rw [urlString_of_host u hopq hhost hquery hforce hfrag, hep, if_pos hcond]

/-- The URL of lines 59-65 for a base with a clean path and plain category and
identifier: the base, a slash, the category, a slash, the identifier. -/
theorem lookupURL_plain (base : URL) (segs : List String) (identifier : String)
    (jobOverride : List String)
    (hopq : base.Opaque = "") (hhost : base.Host ≠ "") (hraw : base.RawPath = "")
    (hpath : base.Path = slashPath segs) (hquery : base.RawQuery = "")
    (hforce : base.ForceQuery = false) (hfrag : base.Fragment = "")
    (hsegs : ∀ s ∈ segs, plainSegment s = true)
    (hjob : plainSegment (jobOverride.headD "node") = true)
    (hid : plainSegment identifier = true) :
    lookupURL base identifier jobOverride =
      base.String ++ "/" ++ jobOverride.headD "node" ++ "/" ++ identifier := by
  have hS := slashPath_plain segs hsegs
  have hJ := plainSegment_chars hjob
  have hI := plainSegment_chars hid
  have hP : ∀ c ∈ base.Path.data, shouldEscape c .encodePath = false := by
    rw [hpath]; exact pathChars_plain _ hS
  have hEd : ("/" ++ jobOverride.headD "node" ++ "/" ++ identifier).data =
      pathChars [(jobOverride.headD "node").data, identifier.data] := by
    simp [pathChars]
  have hE : ∀ c ∈ pathChars [(jobOverride.headD "node").data, identifier.data],
      shouldEscape c .encodePath = false :=
    pathChars_plain _ (fun x hx => by
      rcases List.mem_cons.mp hx with h | h
      · rw [h]; exact hJ
      · rw [List.mem_singleton.mp h]; exact hI)
  have hbaseroot : base.Path = "" ∨ base.Path.data.head? = some '/' := by
    rw [hpath]
    cases segs with
    | nil => left; rfl
    | cons a rest => right; simp [slashPath, pathChars]
  have hbase := urlString_rooted base base.Path hopq hhost hquery hforce hfrag
    (EscapedPath_plain base hraw hP) hbaseroot
  rw [lookupURL_headD, JoinPath_plain base segs _ identifier hraw hpath hsegs hjob hid, hbase]
  cases segs with
  | nil =>
    have h0 : base.Path = "" := by rw [hpath]; rfl
    have hd : (jobOverride.headD "node" ++ "/" ++ identifier).data =
        (pathChars [(jobOverride.headD "node").data, identifier.data]).drop 1 := by
      simp [pathChars]
    have hplain : ∀ c ∈ (jobOverride.headD "node" ++ "/" ++ identifier).data,
        shouldEscape c .encodePath = false := by
      intro c hc
      rw [hd] at hc
      exact hE c (List.mem_of_mem_drop hc)
    have hne : jobOverride.headD "node" ++ "/" ++ identifier ≠ "" :=
      append_ne_empty_left _ _ (append_ne_empty_left _ _
        (fun h => hJ.1 (congrArg String.data h)))
    have hhead : (jobOverride.headD "node" ++ "/" ++ identifier).data.head? ≠ some '/' := by
      simp only [String.data_append, List.append_assoc]
      cases hjd : (jobOverride.headD "node").data with
      | nil => exact absurd hjd hJ.1
      | cons a t =>
        simp only [List.cons_append, List.head?_cons, ne_eq, Option.some.injEq]
        exact (hJ.2.2.2 a (by rw [hjd]; exact List.mem_cons_self _ _)).1
    have hnew := urlString_rootless
      { base with Path := jobOverride.headD "node" ++ "/" ++ identifier, RawPath := "" }
      (jobOverride.headD "node" ++ "/" ++ identifier) hopq hhost hquery hforce hfrag
      (EscapedPath_plain _ rfl hplain) hne hhead
    simp only [if_true]
    rw [hnew, h0]
    simp only [String.append_empty, String.append_assoc]
  | cons a rest =>
    have hne : ¬ (a :: rest) = [] := fun h => by cases h
    have hd : (slashPath (a :: rest) ++ "/" ++ jobOverride.headD "node" ++ "/" ++
        identifier).data = pathChars ((a :: rest).map String.data) ++
          pathChars [(jobOverride.headD "node").data, identifier.data] := by
      simp [slashPath, pathChars]
    have hplain : ∀ c ∈ (slashPath (a :: rest) ++ "/" ++ jobOverride.headD "node" ++ "/" ++
        identifier).data, shouldEscape c .encodePath = false := by
      intro c hc
      rw [hd, List.mem_append] at hc
      rcases hc with h | h
      · exact pathChars_plain _ hS c h
      · exact hE c h
    have hroot : (slashPath (a :: rest) ++ "/" ++ jobOverride.headD "node" ++ "/" ++
        identifier).data.head? = some '/' := by
      rw [hd]; simp [pathChars]
    have hnew := urlString_rooted
      { base with
        Path := slashPath (a :: rest) ++ "/" ++ jobOverride.headD "node" ++ "/" ++ identifier,
        RawPath := "" }
      (slashPath (a :: rest) ++ "/" ++ jobOverride.headD "node" ++ "/" ++ identifier)
      hopq hhost hquery hforce hfrag (EscapedPath_plain _ rfl hplain) (Or.inr hroot)
    simp only [hne, if_false]
    rw [hnew, hpath]
    simp only [String.append_assoc]

/-! ## Lemmas on request headers -/

theorem Header.find_del (h : Header) (k k' : String) :
    Header.find k' (Header.del k h) = if k = k' then none else Header.find k' h := by
  induction h with
  | nil => simp [Header.del, Header.find]
  | cons a rest ih =>
    obtain ⟨x, v⟩ := a
    by_cases hx : x = k
    · subst hx
      by_cases hk : x = k'
      · subst hk
        simpa [Header.del] using ih
      · simp [Header.del, Header.find, hk, ih]
    · by_cases hk : k = k'
      · subst hk
        simp [Header.del, Header.find, hx, ih]
      · by_cases hx' : x = k'
        · subst hx'
          simp [Header.del, Header.find, hx, hk]
        · simp [Header.del, Header.find, hx, hx', ih, hk]

theorem Header.find_Set (h : Header) (k v k' : String) :
    Header.find k' (Header.Set h k v) = if k = k' then some v else Header.find k' h := by
  unfold Header.Set
  by_cases hk : k = k'
  · simp [Header.find, hk]
  · simp [Header.find, hk, Header.find_del]

/-- The conditional headers of a request that was built: `If-Modified-Since` is there
exactly when the lookup found an entry, `If-None-Match` exactly when it found one with a
non-empty etag, and they carry the entry's `cachedAt` and `etag`. -/
theorem buildRequest_headers (env : Env) (p : Client) (ctx : Context) (urlTarget : String)
    (cachedData : cacheValue) (cached : Bool) (req : Request)
    (h : buildRequest env p ctx urlTarget cachedData cached = .ok req) :
    (req.Header.Has "If-Modified-Since" = cached) ∧
    (cached = true → req.Header.Get "If-Modified-Since" = cachedData.cachedAt) ∧
    (req.Header.Has "If-None-Match" = (cached && decide (cachedData.etag ≠ ""))) ∧
    (cached = true → cachedData.etag ≠ "" → req.Header.Get "If-None-Match" = cachedData.etag) := by
  unfold buildRequest NewRequestWithContext at h
  cases hp : env.Parse urlTarget with
  | error e => simp [hp] at h
  | ok u =>
    simp only [hp, Except.ok.injEq] at h
    subst h
    cases cached with
    | false =>
      simp [Request.HeaderSet, Request.SetBasicAuth, Header.find_Set, Header.Has, Header.find]
    | true =>
      by_cases he : cachedData.etag = ""
      · simp [Request.HeaderSet, Request.SetBasicAuth, Header.find_Set, Header.Has, Header.Get,
          Header.find, he]
      · simp [Request.HeaderSet, Request.SetBasicAuth, Header.find_Set, Header.Has, Header.Get,
          Header.find, he]

theorem finishFetch_send_mem (env : Env) (w : World) (p : Client) (cache : Cache)
    (urlTarget : String) (resp : Response) (datab : Option String) (trace : List Event)
    (r : Request) (h : Event.send r ∈ (finishFetch env w p cache urlTarget resp datab trace).trace) :
    Event.send r ∈ trace := by
  unfold finishFetch at h
  cases datab with
  | some d => simpa using h
  | none =>
    cases hb : resp.Body with
    | error e => simp only [hb] at h; simpa using h
    | ok b => simp only [hb] at h; simpa using h

/-! ## The shape of a call that got a response -/

/-- A call on a configured client whose request was built and answered: the cache
lookup, the request and the send have happened, and the result is decided by the status
code alone. -/
theorem GetWithContext_answered (env : Env) (w : World) (p : Client) (base : URL) (c : Cache)
    (ctx : Context) (identifier : String) (jobOverride : List String) (req : Request)
    (resp : Response) (hu : p.url = some base) (hc : p.cache = some c)
    (hreq : buildRequest env p ctx (lookupURL base identifier jobOverride)
      ((c.Peek (lookupURL base identifier jobOverride)).getD cacheValue.zero)
      (c.Peek (lookupURL base identifier jobOverride)).isSome = .ok req)
    (hdo : w.Do req = .ok resp) :
    p.GetWithContext env w ctx identifier jobOverride =
      if resp.StatusCode = 304 ∧ (c.Peek (lookupURL base identifier jobOverride)).isSome then
        some (finishFetch env w p (c.Get (lookupURL base identifier jobOverride)).2
          (lookupURL base identifier jobOverride) resp
          ((c.Peek (lookupURL base identifier jobOverride)).getD cacheValue.zero).data
          [Event.cacheGet (lookupURL base identifier jobOverride),
           Event.newRequest "GET" (lookupURL base identifier jobOverride), Event.send req])
      else if resp.StatusCode = 410 then
        some { targets := none, err := none,
               client := { p with cache := some (c.Get (lookupURL base identifier jobOverride)).2 },
               trace := [Event.cacheGet (lookupURL base identifier jobOverride),
                 Event.newRequest "GET" (lookupURL base identifier jobOverride), Event.send req] }
      else if resp.StatusCode ≠ 200 then
        some { targets := none, err := some ("HTTP error: " ++ resp.Status),
               client := { p with cache := some (c.Get (lookupURL base identifier jobOverride)).2 },
               trace := [Event.cacheGet (lookupURL base identifier jobOverride),
                 Event.newRequest "GET" (lookupURL base identifier jobOverride), Event.send req] }
      else
        some (finishFetch env w p (c.Get (lookupURL base identifier jobOverride)).2
          (lookupURL base identifier jobOverride) resp none
          [Event.cacheGet (lookupURL base identifier jobOverride),
           Event.newRequest "GET" (lookupURL base identifier jobOverride), Event.send req]) := by
  unfold Client.GetWithContext
  simp only [hu, hc, Cache.Get_fst, hreq, hdo, List.cons_append, List.nil_append]

/-- A call on a configured client whose request could not be built. -/
theorem GetWithContext_request_error (env : Env) (w : World) (p : Client) (base : URL)
    (c : Cache) (ctx : Context) (identifier : String) (jobOverride : List String)
    (e : String) (hu : p.url = some base) (hc : p.cache = some c)
    (hreq : buildRequest env p ctx (lookupURL base identifier jobOverride)
      ((c.Peek (lookupURL base identifier jobOverride)).getD cacheValue.zero)
      (c.Peek (lookupURL base identifier jobOverride)).isSome = .error e) :
    p.GetWithContext env w ctx identifier jobOverride =
      some { targets := none, err := some e,
             client := { p with cache := some (c.Get (lookupURL base identifier jobOverride)).2 },
             trace := [Event.cacheGet (lookupURL base identifier jobOverride),
               Event.newRequest "GET" (lookupURL base identifier jobOverride)] } := by
  unfold Client.GetWithContext
  simp only [hu, hc, Cache.Get_fst, hreq]

/-- A call on a configured client whose request was sent and not answered. -/
theorem GetWithContext_transport_error (env : Env) (w : World) (p : Client) (base : URL)
    (c : Cache) (ctx : Context) (identifier : String) (jobOverride : List String)
    (req : Request) (e : String) (hu : p.url = some base) (hc : p.cache = some c)
    (hreq : buildRequest env p ctx (lookupURL base identifier jobOverride)
      ((c.Peek (lookupURL base identifier jobOverride)).getD cacheValue.zero)
      (c.Peek (lookupURL base identifier jobOverride)).isSome = .ok req)
    (hdo : w.Do req = .error e) :
    p.GetWithContext env w ctx identifier jobOverride =
      some { targets := none, err := some e,
             client := { p with cache := some (c.Get (lookupURL base identifier jobOverride)).2 },
             trace := [Event.cacheGet (lookupURL base identifier jobOverride),
               Event.newRequest "GET" (lookupURL base identifier jobOverride),
               Event.send req] } := by
  unfold Client.GetWithContext
  simp only [hu, hc, Cache.Get_fst, hreq, hdo, List.cons_append, List.nil_append]

/-- A 200 response whose body was read: the body is cached under the lookup URL and
then decoded. -/
theorem GetWithContext_ok (env : Env) (w : World) (p : Client) (base : URL) (c : Cache)
    (ctx : Context) (identifier : String) (jobOverride : List String) (req : Request)
    (resp : Response) (body : String) (hu : p.url = some base) (hc : p.cache = some c)
    (hreq : buildRequest env p ctx (lookupURL base identifier jobOverride)
      ((c.Peek (lookupURL base identifier jobOverride)).getD cacheValue.zero)
      (c.Peek (lookupURL base identifier jobOverride)).isSome = .ok req)
    (hdo : w.Do req = .ok resp) (h200 : resp.StatusCode = 200) (hbody : resp.Body = .ok body) :
    p.GetWithContext env w ctx identifier jobOverride =
      some { targets := (decodePayload env body).1, err := (decodePayload env body).2,
             client :=
               { p with
                 cache := some ((c.Get (lookupURL base identifier jobOverride)).2.Add
                   (lookupURL base identifier jobOverride)
                   { data := some body, etag := resp.Header "ETag",
                     cachedAt := if resp.Header "Last-Modified" = "" then w.Now
                                 else resp.Header "Last-Modified" }) },
             trace := [Event.cacheGet (lookupURL base identifier jobOverride),
               Event.newRequest "GET" (lookupURL base identifier jobOverride), Event.send req,
               Event.readBody,
               Event.cacheAdd (lookupURL base identifier jobOverride)
                 { data := some body, etag := resp.Header "ETag",
                   cachedAt := if resp.Header "Last-Modified" = "" then w.Now
                               else resp.Header "Last-Modified" },
               Event.unmarshal body] } := by
  have h304 : ¬ (resp.StatusCode = 304 ∧
      (c.Peek (lookupURL base identifier jobOverride)).isSome) := by
    rw [h200]; rintro ⟨h, -⟩; exact absurd h (by decide)
  have h410 : ¬ resp.StatusCode = 410 := by rw [h200]; decide
  rw [GetWithContext_answered env w p base c ctx identifier jobOverride req resp hu hc hreq hdo,
    if_neg h304, if_neg h410, if_neg (not_not.mpr h200)]
  simp only [finishFetch, hbody, List.cons_append, List.nil_append]

/-- A 304 response while an entry with a non-nil payload is cached: the payload is
decoded and the cache is only looked up. -/
theorem GetWithContext_not_modified (env : Env) (w : World) (p : Client) (base : URL)
    (c : Cache) (ctx : Context) (identifier : String) (jobOverride : List String)
    (req : Request) (resp : Response) (entry : cacheValue) (data : String)
    (hu : p.url = some base) (hc : p.cache = some c)
    (hentry : c.Peek (lookupURL base identifier jobOverride) = some entry)
    (hdata : entry.data = some data)
    (hreq : buildRequest env p ctx (lookupURL base identifier jobOverride) entry true = .ok req)
    (hdo : w.Do req = .ok resp) (h304 : resp.StatusCode = 304) :
    p.GetWithContext env w ctx identifier jobOverride =
      some { targets := (decodePayload env data).1, err := (decodePayload env data).2,
             client := { p with cache := some (c.Get (lookupURL base identifier jobOverride)).2 },
             trace := [Event.cacheGet (lookupURL base identifier jobOverride),
               Event.newRequest "GET" (lookupURL base identifier jobOverride), Event.send req,
               Event.unmarshal data] } := by
  have hreq' : buildRequest env p ctx (lookupURL base identifier jobOverride)
      ((c.Peek (lookupURL base identifier jobOverride)).getD cacheValue.zero)
      (c.Peek (lookupURL base identifier jobOverride)).isSome = .ok req := by
    rw [hentry]; exact hreq
  have hcond : resp.StatusCode = 304 ∧
      (c.Peek (lookupURL base identifier jobOverride)).isSome := ⟨h304, by rw [hentry]; rfl⟩
  rw [GetWithContext_answered env w p base c ctx identifier jobOverride req resp hu hc hreq' hdo,
    if_pos hcond]
  simp only [hentry, Option.getD_some, hdata, finishFetch, List.cons_append, List.nil_append]

theorem Client.Peek_with_cache (p : Client) (c : Cache) (k : String) :
    Client.Peek { p with cache := some c } k = c.Peek k := rfl

theorem NewClient_configured (env : Env) (baseURL login password : String) (base : URL)
    (hparse : env.Parse baseURL = .ok base) (hlogin : login ≠ "") (hpassword : password ≠ "") :
    NewClient env baseURL login password =
      { url := some base, cache := some { size := 1000, evictList := [] },
        login := login, password := password } := by
  unfold NewClient
  simp only [hparse, hlogin, hpassword, or_self, if_false]
  rfl

theorem finishFetch_cacheAdd_mem (env : Env) (w : World) (p : Client) (cache : Cache)
    (urlTarget : String) (resp : Response) (datab : Option String) (trace : List Event)
    (k : String) (v : cacheValue)
    (h : Event.cacheAdd k v ∈ (finishFetch env w p cache urlTarget resp datab trace).trace) :
    Event.cacheAdd k v ∈ trace ∨ k = urlTarget := by
  unfold finishFetch at h
  cases datab with
  | some d => left; simpa using h
  | none =>
    cases hb : resp.Body with
    | error e => simp only [hb] at h; left; simpa using h
    | ok b =>
      simp only [hb] at h
      simp only [List.mem_append, List.mem_cons, Event.cacheAdd.injEq, List.mem_singleton,
        reduceCtorEq, false_or, or_false, List.not_mem_nil] at h
      rcases h with h | h
      · exact Or.inl h
      · exact Or.inr h.1

theorem finishFetch_trace_extends (env : Env) (w : World) (p : Client) (cache : Cache)
    (urlTarget : String) (resp : Response) (datab : Option String) (trace : List Event) :
    ∃ rest, (finishFetch env w p cache urlTarget resp datab trace).trace = trace ++ rest := by
  unfold finishFetch
  cases datab with
  | some d => exact ⟨_, rfl⟩
  | none =>
    cases resp.Body with
    | error e => exact ⟨_, rfl⟩
    | ok b => exact ⟨_, rfl⟩

/-- Every call on a configured client looks the cache up under `lookupURL`, builds its
request for `lookupURL`, and adds to the cache under no other key. -/
theorem GetWithContext_uses_lookupURL (env : Env) (w : World) (p : Client) (base : URL)
    (c : Cache) (ctx : Context) (identifier : String) (jobOverride : List String)
    (hu : p.url = some base) (hc : p.cache = some c) :
    ∃ out rest, p.GetWithContext env w ctx identifier jobOverride = some out ∧
      out.trace = Event.cacheGet (lookupURL base identifier jobOverride) ::
        Event.newRequest "GET" (lookupURL base identifier jobOverride) :: rest ∧
      ∀ k v, Event.cacheAdd k v ∈ out.trace → k = lookupURL base identifier jobOverride := by
  cases hreq : buildRequest env p ctx (lookupURL base identifier jobOverride)
      ((c.Peek (lookupURL base identifier jobOverride)).getD cacheValue.zero)
      (c.Peek (lookupURL base identifier jobOverride)).isSome with
  | error e =>
    exact ⟨_, _, GetWithContext_request_error env w p base c ctx identifier jobOverride e
      hu hc hreq, rfl, fun k v h => by simp at h⟩
  | ok req =>
    cases hdo : w.Do req with
    | error e =>
      exact ⟨_, _, GetWithContext_transport_error env w p base c ctx identifier jobOverride
        req e hu hc hreq hdo, rfl, fun k v h => by simp at h⟩
    | ok resp =>
      have hans := GetWithContext_answered env w p base c ctx identifier jobOverride req
        resp hu hc hreq hdo
      have hfin : ∀ datab, ∃ rest,
          (finishFetch env w p (c.Get (lookupURL base identifier jobOverride)).2
            (lookupURL base identifier jobOverride) resp datab
            [Event.cacheGet (lookupURL base identifier jobOverride),
             Event.newRequest "GET" (lookupURL base identifier jobOverride),
             Event.send req]).trace =
          Event.cacheGet (lookupURL base identifier jobOverride) ::
            Event.newRequest "GET" (lookupURL base identifier jobOverride) :: rest ∧
          ∀ k v, Event.cacheAdd k v ∈
            (finishFetch env w p (c.Get (lookupURL base identifier jobOverride)).2
              (lookupURL base identifier jobOverride) resp datab
              [Event.cacheGet (lookupURL base identifier jobOverride),
               Event.newRequest "GET" (lookupURL base identifier jobOverride),
               Event.send req]).trace → k = lookupURL base identifier jobOverride := by
        intro datab
        obtain ⟨rest, hrest⟩ := finishFetch_trace_extends env w p
          (c.Get (lookupURL base identifier jobOverride)).2
          (lookupURL base identifier jobOverride) resp datab
          [Event.cacheGet (lookupURL base identifier jobOverride),
           Event.newRequest "GET" (lookupURL base identifier jobOverride), Event.send req]
        refine ⟨Event.send req :: rest, by rw [hrest]; rfl, fun k v h => ?_⟩
        rcases finishFetch_cacheAdd_mem _ _ _ _ _ _ _ _ _ _ h with h' | h'
        · simp at h'
        · exact h'
      split_ifs at hans
      · obtain ⟨rest, h1, h2⟩ := hfin
          ((c.Peek (lookupURL base identifier jobOverride)).getD cacheValue.zero).data
        exact ⟨_, rest, hans, h1, h2⟩
      · exact ⟨_, _, hans, rfl, fun k v h => by simp at h⟩
      · exact ⟨_, _, hans, rfl, fun k v h => by simp at h⟩
      · obtain ⟨rest, h1, h2⟩ := hfin none
        exact ⟨_, rest, hans, h1, h2⟩

/-! ## Reachable clients -/

theorem NewClient_wellFormed (env : Env) (baseURL login password : String) :
    (NewClient env baseURL login password).WellFormed ∧
    ∀ k, (NewClient env baseURL login password).Peek k = none := by
  unfold NewClient
  cases env.Parse baseURL with
  | error e => exact ⟨⟨fun h => absurd rfl h, fun k v h => by cases h⟩, fun _ => rfl⟩
  | ok base =>
    by_cases h : login = "" ∨ password = ""
    · simp only [h, if_true]
      exact ⟨⟨fun h => absurd rfl h, fun k v h => by cases h⟩, fun _ => rfl⟩
    · simp only [h, if_false]
      refine ⟨⟨fun _ => ?_, fun k v h => ?_⟩, fun _ => rfl⟩
      · simp [lruNew]
      · simp [lruNew, Client.Peek, Cache.Peek, lookupEntry] at h

/-- One call on a well-formed client: it returns, the client stays well formed, and an
entry that is new or different after the call sits under the lookup URL of the call and
comes from a response with status 200. -/
theorem GetWithContext_step (env : Env) (w : World) (p : Client) (ctx : Context)
    (identifier : String) (jobOverride : List String) (hwf : p.WellFormed) :
    ∃ out, p.GetWithContext env w ctx identifier jobOverride = some out ∧
      out.client.WellFormed ∧
      ∀ k v, out.client.Peek k = some v → p.Peek k ≠ some v →
        ∃ base req resp, p.url = some base ∧ k = lookupURL base identifier jobOverride ∧
          Event.send req ∈ out.trace ∧ w.Do req = .ok resp ∧ resp.StatusCode = 200 := by
  obtain ⟨hcache, hdata⟩ := hwf
  cases hu : p.url with
  | none =>
    refine ⟨{ targets := none, err := none, client := p, trace := [] }, ?_, ⟨hcache, hdata⟩, ?_⟩
    · unfold Client.GetWithContext; simp only [hu]
    · intro k v h1 h2; exact absurd h1 h2
  | some base =>
    cases hc : p.cache with
    | none => exact absurd hc (hcache (by rw [hu]; exact Option.some_ne_none _))
    | some c =>
      have hpk : ∀ k, p.Peek k = c.Peek k := fun k => by unfold Client.Peek; rw [hc]
      -- the outcomes that only look the entry up
      have hsame : ∀ (t : Option (List (Option Target))) (e : Option String) (tr : List Event),
          p.GetWithContext env w ctx identifier jobOverride =
            some { targets := t, err := e,
                   client := { p with cache := some (c.Get (lookupURL base identifier jobOverride)).2 },
                   trace := tr } →
          ∃ out, p.GetWithContext env w ctx identifier jobOverride = some out ∧
            out.client.WellFormed ∧
            ∀ k v, out.client.Peek k = some v → p.Peek k ≠ some v →
              ∃ base' req resp, some base = some base' ∧
                k = lookupURL base' identifier jobOverride ∧
                Event.send req ∈ out.trace ∧ w.Do req = .ok resp ∧ resp.StatusCode = 200 := by
        intro t e tr h
        refine ⟨_, h, ⟨fun _ => Option.some_ne_none _, fun k v hv => ?_⟩, fun k v hv hne => ?_⟩
        · rw [Client.Peek_with_cache, Cache.Get_peek, ← hpk] at hv
          exact hdata k v hv
        · rw [Client.Peek_with_cache, Cache.Get_peek, ← hpk] at hv
          exact absurd hv hne
      cases hreq : buildRequest env p ctx (lookupURL base identifier jobOverride)
          ((c.Peek (lookupURL base identifier jobOverride)).getD cacheValue.zero)
          (c.Peek (lookupURL base identifier jobOverride)).isSome with
      | error e =>
        exact hsame _ _ _ (GetWithContext_request_error env w p base c ctx identifier
          jobOverride e hu hc hreq)
      | ok req =>
        cases hdo : w.Do req with
        | error e =>
          exact hsame _ _ _ (GetWithContext_transport_error env w p base c ctx identifier
            jobOverride req e hu hc hreq hdo)
        | ok resp =>
          have hans := GetWithContext_answered env w p base c ctx identifier jobOverride req
            resp hu hc hreq hdo
          by_cases h304 : resp.StatusCode = 304 ∧
              (c.Peek (lookupURL base identifier jobOverride)).isSome
          · cases hentry : c.Peek (lookupURL base identifier jobOverride) with
            | none => rw [hentry] at h304; exact absurd h304.2 (by simp)
            | some entry =>
              cases hd : entry.data with
              | none => exact absurd hd (hdata _ entry (by rw [hpk]; exact hentry))
              | some data =>
                rw [hentry] at hreq
                exact hsame _ _ _ (GetWithContext_not_modified env w p base c ctx identifier
                  jobOverride req resp entry data hu hc hentry hd hreq hdo h304.1)
          · rw [if_neg h304] at hans
            by_cases h410 : resp.StatusCode = 410
            · rw [if_pos h410] at hans
              exact hsame _ _ _ hans
            · rw [if_neg h410] at hans
              by_cases h200 : resp.StatusCode = 200
              · cases hbody : resp.Body with
                | error e =>
                  rw [if_neg (not_not.mpr h200)] at hans
                  simp only [finishFetch, hbody] at hans
                  exact hsame _ _ _ hans
                | ok body =>
                  have hok := GetWithContext_ok env w p base c ctx identifier jobOverride req
                    resp body hu hc hreq hdo h200 hbody
                  refine ⟨_, hok, ⟨fun _ => Option.some_ne_none _, fun k v hv => ?_⟩,
                    fun k v hv hne => ?_⟩
                  · rw [Client.Peek_with_cache] at hv
                    by_cases hk : k = lookupURL base identifier jobOverride
                    · subst hk
                      rw [Cache.Add_peek_self_eq _ _ _ _ hv]
                      exact Option.some_ne_none _
                    · have := Cache.Add_peek_other _ _ _ _ _ hk hv
                      rw [Cache.Get_peek, ← hpk] at this
                      exact hdata k v this
                  · rw [Client.Peek_with_cache] at hv
                    by_cases hk : k = lookupURL base identifier jobOverride
                    · exact ⟨base, req, resp, rfl, hk, by simp, hdo, h200⟩
                    · have := Cache.Add_peek_other _ _ _ _ _ hk hv
                      rw [Cache.Get_peek, ← hpk] at this
                      exact absurd this hne
              · rw [if_pos h200] at hans
                exact hsame _ _ _ hans

theorem runCalls_wellFormed (env : Env) :
    ∀ (calls : List Call) (p : Client), p.WellFormed →
      ∃ q, runCalls env p calls = some q ∧ q.WellFormed
  | [], p, h => ⟨p, rfl, h⟩
  | call :: rest, p, h => by
    obtain ⟨out, hout, hwf, -⟩ :=
      GetWithContext_step env call.world p call.ctx call.identifier call.jobOverride h
    obtain ⟨q, hq, hqwf⟩ := runCalls_wellFormed env rest out.client hwf
    exact ⟨q, by simp only [runCalls, hout, hq], hqwf⟩

/-! ## Filling the cache of the test client -/

theorem lookupEntry_append (k : String) :
    ∀ (a b : List (String × cacheValue)),
      lookupEntry k (a ++ b) = (lookupEntry k a).orElse (fun _ => lookupEntry k b)
  | [], b => by simp [lookupEntry]
  | (k', v) :: rest, b => by
    by_cases h : k' = k
    · simp [lookupEntry, h]
    · simp only [List.cons_append, lookupEntry, h, if_false]
      exact lookupEntry_append k rest b

theorem fillUrl_data (n : Nat) :
    (fillUrl n).data = "http://example.com/node/".data ++ List.replicate n 'x' := rfl

theorem fillUrl_injective {m n : Nat} (h : fillUrl m = fillUrl n) : m = n := by
  have hd := congrArg String.data h
  rw [fillUrl_data, fillUrl_data] at hd
  have := congrArg List.length (List.append_cancel_left hd)
  simpa using this

theorem fillUrl_ne_test (n : Nat) : fillUrl n ≠ "http://example.com/node/test-id" := by
  intro h
  have hd := congrArg String.data h
  have ht : ("http://example.com/node/test-id" : String).data =
      "http://example.com/node/".data ++ "test-id".data := by decide
  rw [fillUrl_data, ht] at hd
  have h2 := List.append_cancel_left hd
  cases n with
  | zero => simp at h2
  | succ k =>
    have := congrArg List.head? h2
    simp [List.replicate_succ] at this

theorem fillEntries_length (n : Nat) : (fillEntries n).length = n := by
  induction n with
  | zero => rfl
  | succ k ih => simp [fillEntries, ih]

theorem lookupEntry_fillEntries_none (k : String) :
    ∀ n, (∀ j, 1 ≤ j → j ≤ n → fillUrl j ≠ k) → lookupEntry k (fillEntries n) = none
  | 0, _ => rfl
  | n + 1, h => by
    have ih := lookupEntry_fillEntries_none k n (fun j h1 h2 => h j h1 (by omega))
    have hne : ¬ fillUrl (n + 1) = k := h (n + 1) (by omega) (by omega)
    rw [fillEntries, lookupEntry_append, ih]
    simp [lookupEntry, hne]

theorem lookupEntry_fillEntries_last (n : Nat) :
    lookupEntry (fillUrl (n + 1)) (fillEntries (n + 1)) = some fillValue := by
  have h := lookupEntry_fillEntries_none (fillUrl (n + 1)) n
    (fun j _ h2 he => by have := fillUrl_injective he; omega)
  rw [fillEntries, lookupEntry_append, h]
  simp [lookupEntry]

theorem plainSegment_fillIdentifier (n : Nat) : plainSegment (fillIdentifier (n + 1)) = true := by
  unfold plainSegment fillIdentifier
  simp only [Bool.and_eq_true, decide_eq_true_eq, List.all_eq_true, Bool.not_eq_true', ne_eq]
  refine ⟨⟨⟨?_, ?_⟩, ?_⟩, ?_⟩
  · simp [List.replicate_succ]
  · cases n <;> simp [List.replicate_succ]
  · cases n with
    | zero => simp [List.replicate_succ]
    | succ k => cases k <;> simp [List.replicate_succ]
  · intro c hc
    rw [List.eq_of_mem_replicate hc]
    decide

theorem lookupURL_fill (n : Nat) :
    lookupURL testBase (fillIdentifier (n + 1)) [] = fillUrl (n + 1) := by
  rw [lookupURL_plain testBase [] (fillIdentifier (n + 1)) [] rfl (by decide) rfl rfl rfl rfl
    rfl (fun _ h => nomatch h) (by decide) (plainSegment_fillIdentifier n)]
  have hb : testBase.String = "http://example.com" := by decide
  rw [hb]
  rfl

/-- A call of `clientWith entries`, answered by `okWorld`, for a URL that has no entry
while the cache is not full: the new entry goes to the front. -/
theorem GetWithContext_fill (n : Nat) (entries : List (String × cacheValue))
    (hlen : entries.length < 1000) (hfresh : lookupEntry (fillUrl (n + 1)) entries = none) :
    ∃ out, (clientWith entries).GetWithContext fixtureEnv okWorld Context.Background
        (fillIdentifier (n + 1)) [] = some out ∧
      out.client = clientWith ((fillUrl (n + 1), fillValue) :: entries) := by
  have hpeek : Cache.Peek { size := 1000, evictList := entries }
      (lookupURL testBase (fillIdentifier (n + 1)) []) = none := by
    rw [lookupURL_fill]; exact hfresh
  obtain ⟨req, hreq⟩ : ∃ req, buildRequest fixtureEnv (clientWith entries) Context.Background
      (lookupURL testBase (fillIdentifier (n + 1)) [])
      ((Cache.Peek { size := 1000, evictList := entries }
        (lookupURL testBase (fillIdentifier (n + 1)) [])).getD cacheValue.zero)
      (Cache.Peek { size := 1000, evictList := entries }
        (lookupURL testBase (fillIdentifier (n + 1)) [])).isSome = .ok req := by
    rw [hpeek, lookupURL_fill]
    exact ⟨_, rfl⟩
  have hok := GetWithContext_ok fixtureEnv okWorld (clientWith entries) testBase
    { size := 1000, evictList := entries } Context.Background (fillIdentifier (n + 1)) []
    req (mkResponse 200 "200 OK" "" "" (.ok "[]")) "[]" rfl rfl hreq rfl rfl rfl
  refine ⟨_, hok, ?_⟩
  rw [lookupURL_fill]
  have hget : Cache.Get { size := 1000, evictList := entries } (fillUrl (n + 1)) =
      (none, { size := 1000, evictList := entries }) := by
    unfold Cache.Get
    simp only [hfresh]
  have hadd : Cache.Add { size := 1000, evictList := entries } (fillUrl (n + 1)) fillValue =
      { size := 1000, evictList := (fillUrl (n + 1), fillValue) :: entries } := by
    unfold Cache.Add
    simp only [hfresh, List.length_cons]
    rw [if_neg (by omega)]
  have hval : cacheValue.mk (some "[]")
      ((mkResponse 200 "200 OK" "" "" (.ok "[]")).Header "ETag")
      (if (mkResponse 200 "200 OK" "" "" (.ok "[]")).Header "Last-Modified" = "" then okWorld.Now
       else (mkResponse 200 "200 OK" "" "" (.ok "[]")).Header "Last-Modified") = fillValue := by
    decide
  simp only [hget, hval, hadd]
  rfl

theorem runCalls_fill :
    ∀ (n : Nat) (entries : List (String × cacheValue)), entries.length + n ≤ 1000 →
      (∀ j, 1 ≤ j → j ≤ n → lookupEntry (fillUrl j) entries = none) →
      runCalls fixtureEnv (clientWith entries) (fillCalls n) =
        some (clientWith (fillEntries n ++ entries))
  | 0, entries, _, _ => rfl
  | n + 1, entries, hlen, hfresh => by
    obtain ⟨out, hout, hclient⟩ := GetWithContext_fill n entries (by omega)
      (hfresh (n + 1) (by omega) (by omega))
    have ih := runCalls_fill n ((fillUrl (n + 1), fillValue) :: entries)
      (by simp only [List.length_cons]; omega)
      (fun j h1 h2 => by
        have hne : ¬ fillUrl (n + 1) = fillUrl j := fun he => by
          have := fillUrl_injective he; omega
        simp only [lookupEntry, hne, if_false]
        exact hfresh j h1 (by omega))
    have hstep : (clientWith entries).GetWithContext fixtureEnv (fillCall (n + 1)).world
        (fillCall (n + 1)).ctx (fillCall (n + 1)).identifier (fillCall (n + 1)).jobOverride =
        some out := hout
    rw [fillCalls, runCalls, hstep]
    simp only [hclient, ih, fillEntries, List.append_assoc, List.singleton_append]

/-- The test client after a thousand answered calls for different identifiers: its cache
is full. -/
theorem runCalls_full :
    runCalls fixtureEnv testClient (fillCalls 1000) = some (clientWith (fillEntries 1000)) := by
  have h := runCalls_fill 1000 [] (by simp) (fun _ _ _ => rfl)
  rw [List.append_nil] at h
  exact h

/-! ## The claims -/

/-- C1: a client built by `NewClient` from a base URL that does not parse, or with an
empty login or password, is the zero client, and every `GetWithContext` on it returns
`(nil, nil)` with an empty trace: no request is built, nothing is sent and the cache
(which the zero client does not even have) is not touched. -/
theorem C1_unconfigured_client_is_inert (env : Env) (w : World)
    (baseURL login password : String) (ctx : Context) (identifier : String)
    (jobOverride : List String)
    (h : (∃ e, env.Parse baseURL = .error e) ∨ login = "" ∨ password = "") :
    NewClient env baseURL login password = {} ∧
    (NewClient env baseURL login password).GetWithContext env w ctx identifier jobOverride =
      some { targets := none, err := none, client := {}, trace := [] } := by
  have hnew : NewClient env baseURL login password = {} := by
    unfold NewClient
    rcases h with ⟨e, he⟩ | h | h
    · rw [he]
    · cases env.Parse baseURL <;> simp [h]
    · cases env.Parse baseURL <;> simp [h]
  rw [hnew]
  exact ⟨rfl, rfl⟩

/-- Witness for C1: the invalid URL of `TestNewClient_InvalidURL`. -/
theorem C1_unconfigured_client_is_inert_witness :
    ((∃ e, fixtureEnv.Parse "::://invalid-url" = .error e) ∨ "user" = "" ∨ "password" = "") ∧
    NewClient fixtureEnv "::://invalid-url" "user" "password" = {} ∧
    (NewClient fixtureEnv "::://invalid-url" "user" "password").GetWithContext fixtureEnv
        downWorld Context.Background "test-id" [] =
      some { targets := none, err := none, client := {}, trace := [] } :=
  ⟨Or.inl ⟨_, rfl⟩,
   C1_unconfigured_client_is_inert fixtureEnv downWorld "::://invalid-url" "user" "password"
     Context.Background "test-id" [] (Or.inl ⟨_, rfl⟩)⟩

/-- C2: on a configured client, a response whose status is not 200, not 410 and not
(304 with an entry cached under the lookup URL) makes `GetWithContext` return nil
results and the error `HTTP error: ` followed by the status text. The key-to-entry
mapping of the cache is unchanged, and the call stops after the send: no body is read,
nothing is added to the cache and no payload, cached or not, is decoded. -/
theorem C2_other_status_is_http_error (env : Env) (w : World) (p : Client) (base : URL)
    (c : Cache) (ctx : Context) (identifier : String) (jobOverride : List String)
    (req : Request) (resp : Response) (hu : p.url = some base) (hc : p.cache = some c)
    (hreq : buildRequest env p ctx (lookupURL base identifier jobOverride)
      ((c.Peek (lookupURL base identifier jobOverride)).getD cacheValue.zero)
      (c.Peek (lookupURL base identifier jobOverride)).isSome = .ok req)
    (hdo : w.Do req = .ok resp)
    (h200 : resp.StatusCode ≠ 200) (h410 : resp.StatusCode ≠ 410)
    (h304 : ¬ (resp.StatusCode = 304 ∧
      (c.Peek (lookupURL base identifier jobOverride)).isSome)) :
    ∃ out, p.GetWithContext env w ctx identifier jobOverride = some out ∧
      out.targets = none ∧ out.err = some ("HTTP error: " ++ resp.Status) ∧
      (∀ k, out.client.Peek k = c.Peek k) ∧
      out.trace = [Event.cacheGet (lookupURL base identifier jobOverride),
        Event.newRequest "GET" (lookupURL base identifier jobOverride), Event.send req] := by
  rw [GetWithContext_answered env w p base c ctx identifier jobOverride req resp hu hc hreq hdo,
    if_neg h304, if_neg h410, if_pos h200]
  exact ⟨_, rfl, rfl, rfl, fun k => by rw [Client.Peek_with_cache, Cache.Get_peek], rfl⟩

/-- Witness for C2: the server of `TestGetWithContext_ServerError`, asked while a
payload is cached for the URL. -/
theorem C2_other_status_is_http_error_witness :
    ∃ out, Client.GetWithContext fixtureEnv
        (serverWorld (mkResponse 500 "500 Internal Server Error" "" "" (.ok "")))
        { testClient with cache := some testCache } Context.Background "test-id" [] = some out ∧
      out.targets = none ∧ out.err = some ("HTTP error: " ++ "500 Internal Server Error") ∧
      (∀ k, out.client.Peek k = testCache.Peek k) ∧
      out.trace = [Event.cacheGet (lookupURL testBase "test-id" []),
        Event.newRequest "GET" (lookupURL testBase "test-id" []),
        Event.send
          { ctx := .withTimeout Context.Background (10 * Second), Method := "GET",
            URL := { Scheme := "http", Host := "example.com", Path := "/node/test-id" },
            Header := [("User-Agent", "Go-PSD-client/0.0.0-unknown"),
              ("If-None-Match", "\"mock-etag\""),
              ("If-Modified-Since", "Wed, 04 Nov 2026 09:00:00 GMT"),
              ("Authorization", "Basic user:password")] }] :=
  C2_other_status_is_http_error fixtureEnv
    (serverWorld (mkResponse 500 "500 Internal Server Error" "" "" (.ok "")))
    { testClient with cache := some testCache } testBase testCache Context.Background
    "test-id" [] _ _ rfl rfl rfl rfl (by decide) (by decide) (by decide)

/-- C3: on a configured client, whatever the cache holds, a response with status 410
makes `GetWithContext` return `(nil, nil)`; the call stops after the send, so the body
is neither read nor decoded, and nothing is added to the cache. -/
theorem C3_gone_is_empty_success (env : Env) (w : World) (p : Client) (base : URL)
    (c : Cache) (ctx : Context) (identifier : String) (jobOverride : List String)
    (req : Request) (resp : Response) (hu : p.url = some base) (hc : p.cache = some c)
    (hreq : buildRequest env p ctx (lookupURL base identifier jobOverride)
      ((c.Peek (lookupURL base identifier jobOverride)).getD cacheValue.zero)
      (c.Peek (lookupURL base identifier jobOverride)).isSome = .ok req)
    (hdo : w.Do req = .ok resp) (h410 : resp.StatusCode = 410) :
    ∃ out, p.GetWithContext env w ctx identifier jobOverride = some out ∧
      out.targets = none ∧ out.err = none ∧
      (∀ k, out.client.Peek k = c.Peek k) ∧
      out.trace = [Event.cacheGet (lookupURL base identifier jobOverride),
        Event.newRequest "GET" (lookupURL base identifier jobOverride), Event.send req] := by
  have h304 : ¬ (resp.StatusCode = 304 ∧
      (c.Peek (lookupURL base identifier jobOverride)).isSome) := by
    rw [h410]; rintro ⟨h, -⟩; exact absurd h (by decide)
  rw [GetWithContext_answered env w p base c ctx identifier jobOverride req resp hu hc hreq hdo,
    if_neg h304, if_pos h410]
  exact ⟨_, rfl, rfl, rfl, fun k => by rw [Client.Peek_with_cache, Cache.Get_peek], rfl⟩

/-- Witness for C3: the server of `TestGetWithContext_NotFound`, with an entry cached. -/
theorem C3_gone_is_empty_success_witness :
    ∃ out, Client.GetWithContext fixtureEnv
        (serverWorld (mkResponse 410 "410 Gone" "" "" (.ok "gone")))
        { testClient with cache := some testCache } Context.Background "test-id" [] = some out ∧
      out.targets = none ∧ out.err = none ∧
      (∀ k, out.client.Peek k = testCache.Peek k) ∧
      out.trace = [Event.cacheGet "http://example.com/node/test-id",
        Event.newRequest "GET" "http://example.com/node/test-id",
        Event.send
          { ctx := .withTimeout Context.Background (10 * Second), Method := "GET",
            URL := { Scheme := "http", Host := "example.com", Path := "/node/test-id" },
            Header := [("User-Agent", "Go-PSD-client/0.0.0-unknown"),
              ("If-None-Match", "\"mock-etag\""),
              ("If-Modified-Since", "Wed, 04 Nov 2026 09:00:00 GMT"),
              ("Authorization", "Basic user:password")] }] :=
  C3_gone_is_empty_success fixtureEnv
    (serverWorld (mkResponse 410 "410 Gone" "" "" (.ok "gone")))
    { testClient with cache := some testCache } testBase testCache Context.Background
    "test-id" [] _ _ rfl rfl rfl rfl rfl

/-- C4 fails as stated: after a thousand answered calls for different identifiers the
cache of the test client is full, and the write of one more 200 response, for a URL that
has no entry, evicts the entry of the least recently used URL: an entry under another
key is there before the call and gone after it. -/
theorem C4_counterexample_full_cache_evicts :
    ∃ p out,
      runCalls fixtureEnv testClient (fillCalls 1000) = some p ∧
      p.GetWithContext fixtureEnv okWorld Context.Background "test-id" [] = some out ∧
      fillUrl 1000 ≠ lookupURL testBase "test-id" [] ∧
      p.Peek (fillUrl 1000) = some fillValue ∧
      out.client.Peek (fillUrl 1000) = none := by
  have hurl : lookupURL testBase "test-id" [] = "http://example.com/node/test-id" := by decide
  have hnone : Cache.Peek { size := 1000, evictList := fillEntries 1000 }
      (lookupURL testBase "test-id" []) = none := by
    rw [hurl]
    exact lookupEntry_fillEntries_none _ 1000 (fun j _ _ => fillUrl_ne_test j)
  obtain ⟨req, hreq⟩ : ∃ req, buildRequest fixtureEnv (clientWith (fillEntries 1000))
      Context.Background (lookupURL testBase "test-id" [])
      ((Cache.Peek { size := 1000, evictList := fillEntries 1000 }
        (lookupURL testBase "test-id" [])).getD cacheValue.zero)
      (Cache.Peek { size := 1000, evictList := fillEntries 1000 }
        (lookupURL testBase "test-id" [])).isSome = .ok req := by
    rw [hnone, hurl]
    exact ⟨_, rfl⟩
  have hok := GetWithContext_ok fixtureEnv okWorld (clientWith (fillEntries 1000)) testBase
    { size := 1000, evictList := fillEntries 1000 } Context.Background "test-id" []
    req (mkResponse 200 "200 OK" "" "" (.ok "[]")) "[]" rfl rfl hreq rfl rfl rfl
  refine ⟨_, _, runCalls_full, hok, ?_, ?_, ?_⟩
  · rw [hurl]; exact fillUrl_ne_test 1000
  · exact lookupEntry_fillEntries_last 999
  · rw [Client.Peek_with_cache, Cache.Get_of_peek_none _ _ hnone,
      Cache.Add_peek_other_full _ _ _ _ (by rw [hurl]; exact fillUrl_ne_test 1000) hnone
        (by decide) (by simp only [fillEntries_length]; exact Nat.le_refl _)]
    show lookupEntry (fillUrl 1000) (fillEntries (999 + 1)).dropLast = none
    rw [fillEntries, List.dropLast_concat]
    exact lookupEntry_fillEntries_none _ 999
      (fun j _ h2 he => by have := fillUrl_injective he; omega)

/-- C4, amended: on a configured client, after a 200 response whose body was read, the
entry under the lookup URL is exactly the body, the `ETag` header of the response and
its `Last-Modified` header (the current time when that header is empty), whatever was
stored there before. No entry under another key is created or changed. The entries
under the other keys are the same as before, unless the lookup URL had no entry and the
cache was already full: then the write evicts the least recently used entry, the last
of the eviction list, and the other keys hold what the rest of the list held. -/
theorem C4_ok_response_is_cached (env : Env) (w : World) (p : Client) (base : URL)
    (c : Cache) (ctx : Context) (identifier : String) (jobOverride : List String)
    (req : Request) (resp : Response) (body : String)
    (hu : p.url = some base) (hc : p.cache = some c) (hsize : 0 < c.size)
    (hreq : buildRequest env p ctx (lookupURL base identifier jobOverride)
      ((c.Peek (lookupURL base identifier jobOverride)).getD cacheValue.zero)
      (c.Peek (lookupURL base identifier jobOverride)).isSome = .ok req)
    (hdo : w.Do req = .ok resp) (h200 : resp.StatusCode = 200) (hbody : resp.Body = .ok body) :
    ∃ out, p.GetWithContext env w ctx identifier jobOverride = some out ∧
      out.client.Peek (lookupURL base identifier jobOverride) =
        some { data := some body, etag := resp.Header "ETag",
               cachedAt := if resp.Header "Last-Modified" = "" then w.Now
                           else resp.Header "Last-Modified" } ∧
      (∀ k, k ≠ lookupURL base identifier jobOverride →
        ∀ v, out.client.Peek k = some v → c.Peek k = some v) ∧
      ((c.Peek (lookupURL base identifier jobOverride) ≠ none ∨ c.evictList.length < c.size) →
        ∀ k, k ≠ lookupURL base identifier jobOverride → out.client.Peek k = c.Peek k) ∧
      (c.Peek (lookupURL base identifier jobOverride) = none → c.size ≤ c.evictList.length →
        ∀ k, k ≠ lookupURL base identifier jobOverride →
          out.client.Peek k = lookupEntry k c.evictList.dropLast) := by
  have h304 : ¬ (resp.StatusCode = 304 ∧
      (c.Peek (lookupURL base identifier jobOverride)).isSome) := by
    rw [h200]; rintro ⟨h, -⟩; exact absurd h (by decide)
  have h410 : ¬ resp.StatusCode = 410 := by rw [h200]; decide
  rw [GetWithContext_answered env w p base c ctx identifier jobOverride req resp hu hc hreq hdo,
    if_neg h304, if_neg h410, if_neg (not_not.mpr h200)]
  refine ⟨_, rfl, ?_, ?_, ?_, ?_⟩
  · simp only [finishFetch, hbody, Client.Peek_with_cache]
    exact Cache.Add_peek_self _ _ _ (by rw [Cache.Get_size]; exact hsize)
  · intro k hk v hv
    simp only [finishFetch, hbody, Client.Peek_with_cache] at hv
    have := Cache.Add_peek_other _ _ _ _ _ hk hv
    rwa [Cache.Get_peek] at this
  · intro hfree k hk
    simp only [finishFetch, hbody, Client.Peek_with_cache]
    rw [Cache.Add_peek_other_eq _ _ _ _ hk, Cache.Get_peek]
    rw [Cache.Get_peek, Cache.Get_length, Cache.Get_size]
    exact hfree
  · intro hnone hfull k hk
    simp only [finishFetch, hbody, Client.Peek_with_cache]
    rw [Cache.Get_of_peek_none _ _ hnone]
    exact Cache.Add_peek_other_full _ _ _ _ hk hnone hsize hfull

/-- Witness for C4: the server of `TestGetWithContext_CacheMiss` answering a client that
holds an older entry for the URL. -/
theorem C4_ok_response_is_cached_witness :
    ∃ out, Client.GetWithContext fixtureEnv
        (serverWorld (mkResponse 200 "200 OK" "" "\"new-etag\"" (.ok "[]")))
        { testClient with cache := some testCache } Context.Background "test-id" [] = some out ∧
      out.client.Peek (lookupURL testBase "test-id" []) =
        some { data := some "[]", etag := "\"new-etag\"",
               cachedAt := if "" = "" then "Wed, 04 Nov 2026 10:00:00 GMT" else "" } ∧
      (∀ k, k ≠ lookupURL testBase "test-id" [] →
        ∀ v, out.client.Peek k = some v → testCache.Peek k = some v) ∧
      ((testCache.Peek (lookupURL testBase "test-id" []) ≠ none ∨
          testCache.evictList.length < testCache.size) →
        ∀ k, k ≠ lookupURL testBase "test-id" [] → out.client.Peek k = testCache.Peek k) ∧
      (testCache.Peek (lookupURL testBase "test-id" []) = none →
        testCache.size ≤ testCache.evictList.length →
        ∀ k, k ≠ lookupURL testBase "test-id" [] →
          out.client.Peek k = lookupEntry k testCache.evictList.dropLast) :=
  C4_ok_response_is_cached fixtureEnv
    (serverWorld (mkResponse 200 "200 OK" "" "\"new-etag\"" (.ok "[]")))
    { testClient with cache := some testCache } testBase testCache Context.Background
    "test-id" [] testRequest _ "[]" rfl rfl (by decide) rfl rfl rfl rfl

/-- C10: on a configured client, a 200 response whose body was read but does not decode
makes `GetWithContext` return nil results and the decode error, and the entry under the
lookup URL has been overwritten with that body all the same: the write comes before the
decoding and does not depend on it. -/
theorem C10_cache_write_precedes_decoding (env : Env) (w : World) (p : Client) (base : URL)
    (c : Cache) (ctx : Context) (identifier : String) (jobOverride : List String)
    (req : Request) (resp : Response) (body err : String)
    (hu : p.url = some base) (hc : p.cache = some c) (hsize : 0 < c.size)
    (hreq : buildRequest env p ctx (lookupURL base identifier jobOverride)
      ((c.Peek (lookupURL base identifier jobOverride)).getD cacheValue.zero)
      (c.Peek (lookupURL base identifier jobOverride)).isSome = .ok req)
    (hdo : w.Do req = .ok resp) (h200 : resp.StatusCode = 200) (hbody : resp.Body = .ok body)
    (hdecode : env.Unmarshal body = .error err) :
    ∃ out, p.GetWithContext env w ctx identifier jobOverride = some out ∧
      out.targets = none ∧ out.err = some err ∧
      out.client.Peek (lookupURL base identifier jobOverride) =
        some { data := some body, etag := resp.Header "ETag",
               cachedAt := if resp.Header "Last-Modified" = "" then w.Now
                           else resp.Header "Last-Modified" } ∧
      out.trace = [Event.cacheGet (lookupURL base identifier jobOverride),
        Event.newRequest "GET" (lookupURL base identifier jobOverride), Event.send req,
        Event.readBody,
        Event.cacheAdd (lookupURL base identifier jobOverride)
          { data := some body, etag := resp.Header "ETag",
            cachedAt := if resp.Header "Last-Modified" = "" then w.Now
                        else resp.Header "Last-Modified" },
        Event.unmarshal body] := by
  have h304 : ¬ (resp.StatusCode = 304 ∧
      (c.Peek (lookupURL base identifier jobOverride)).isSome) := by
    rw [h200]; rintro ⟨h, -⟩; exact absurd h (by decide)
  have h410 : ¬ resp.StatusCode = 410 := by rw [h200]; decide
  rw [GetWithContext_answered env w p base c ctx identifier jobOverride req resp hu hc hreq hdo,
    if_neg h304, if_neg h410, if_neg (not_not.mpr h200)]
  refine ⟨_, rfl, ?_, ?_, ?_, ?_⟩
  · simp only [finishFetch, hbody, decodePayload, hdecode]
  · simp only [finishFetch, hbody, decodePayload, hdecode]
  · simp only [finishFetch, hbody, Client.Peek_with_cache]
    exact Cache.Add_peek_self _ _ _ (by rw [Cache.Get_size]; exact hsize)
  · simp only [finishFetch, hbody, List.cons_append, List.nil_append]

/-- Witness for C10: a 200 response with a body that is not JSON, received while an
older (decodable) payload is cached for the URL. -/
theorem C10_cache_write_precedes_decoding_witness :
    ∃ out, Client.GetWithContext fixtureEnv
        (serverWorld (mkResponse 200 "200 OK" "" "" (.ok "<html>")))
        { testClient with cache := some testCache } Context.Background "test-id" [] = some out ∧
      out.targets = none ∧ out.err = some "invalid character" ∧
      out.client.Peek (lookupURL testBase "test-id" []) =
        some { data := some "<html>", etag := "",
               cachedAt := if "" = "" then "Wed, 04 Nov 2026 10:00:00 GMT" else "" } ∧
      out.trace = [Event.cacheGet (lookupURL testBase "test-id" []),
        Event.newRequest "GET" (lookupURL testBase "test-id" []), Event.send testRequest,
        Event.readBody,
        Event.cacheAdd (lookupURL testBase "test-id" [])
          { data := some "<html>", etag := "",
            cachedAt := if "" = "" then "Wed, 04 Nov 2026 10:00:00 GMT" else "" },
        Event.unmarshal "<html>"] :=
  C10_cache_write_precedes_decoding fixtureEnv
    (serverWorld (mkResponse 200 "200 OK" "" "" (.ok "<html>")))
    { testClient with cache := some testCache } testBase testCache Context.Background
    "test-id" [] testRequest _ "<html>" "invalid character" rfl rfl (by decide) rfl rfl rfl rfl
    rfl

/-- C5: on every client that `NewClient` and any sequence of `GetWithContext` calls
produce, if the cache holds an entry for the lookup URL, a 304 response makes
`GetWithContext` return the decoding of the entry's stored payload; the response body is
not read, nothing is added to the cache, and the entry under the lookup URL and every
other entry are the same after the call as before. -/
theorem C5_not_modified_uses_cached_payload (env : Env) (baseURL login password : String)
    (calls : List Call) (w : World) (p : Client) (base : URL) (c : Cache) (ctx : Context)
    (identifier : String) (jobOverride : List String) (req : Request) (resp : Response)
    (entry : cacheValue)
    (hreach : runCalls env (NewClient env baseURL login password) calls = some p)
    (hu : p.url = some base) (hc : p.cache = some c)
    (hentry : c.Peek (lookupURL base identifier jobOverride) = some entry)
    (hreq : buildRequest env p ctx (lookupURL base identifier jobOverride) entry true = .ok req)
    (hdo : w.Do req = .ok resp) (h304 : resp.StatusCode = 304) :
    ∃ out data, p.GetWithContext env w ctx identifier jobOverride = some out ∧
      entry.data = some data ∧
      (out.targets, out.err) = decodePayload env data ∧
      (∀ k, out.client.Peek k = c.Peek k) ∧
      out.trace = [Event.cacheGet (lookupURL base identifier jobOverride),
        Event.newRequest "GET" (lookupURL base identifier jobOverride), Event.send req,
        Event.unmarshal data] := by
  obtain ⟨q, hq, hwf⟩ := runCalls_wellFormed env calls _
    (NewClient_wellFormed env baseURL login password).1
  rw [hreach] at hq
  cases hq
  have hpeek : p.Peek (lookupURL base identifier jobOverride) = some entry := by
    unfold Client.Peek; rw [hc]; exact hentry
  cases hdata : entry.data with
  | none => exact absurd hdata (hwf.2 _ entry hpeek)
  | some data =>
    refine ⟨_, data, GetWithContext_not_modified env w p base c ctx identifier jobOverride req
      resp entry data hu hc hentry hdata hreq hdo h304, rfl, rfl, ?_, rfl⟩
    intro k
    rw [Client.Peek_with_cache, Cache.Get_peek]

/-- Witness for C5: the cache-miss call of the tests followed by the cache-hit call. -/
theorem C5_not_modified_uses_cached_payload_witness :
    runCalls fixtureEnv (NewClient fixtureEnv "http://example.com" "user" "password")
      [cacheMissCall] = some { testClient with cache := some testCache } ∧
    ∃ out data, Client.GetWithContext fixtureEnv
        (serverWorld (mkResponse 304 "304 Not Modified" "" "" (.ok "")))
        { testClient with cache := some testCache } Context.Background "test-id" [] = some out ∧
      testEntry.data = some data ∧
      (out.targets, out.err) = decodePayload fixtureEnv data ∧
      (∀ k, out.client.Peek k = testCache.Peek k) ∧
      out.trace = [Event.cacheGet (lookupURL testBase "test-id" []),
        Event.newRequest "GET" (lookupURL testBase "test-id" []), Event.send testRequest,
        Event.unmarshal data] :=
  ⟨rfl, C5_not_modified_uses_cached_payload fixtureEnv "http://example.com" "user" "password"
    [cacheMissCall] (serverWorld (mkResponse 304 "304 Not Modified" "" "" (.ok "")))
    { testClient with cache := some testCache } testBase testCache Context.Background
    "test-id" [] testRequest _ testEntry rfl rfl rfl (by decide) rfl rfl rfl⟩

/-- C7: on a configured client, the request `GetWithContext` builds and sends carries
`If-Modified-Since` exactly when the cache holds an entry for the lookup URL, with the
entry's `cachedAt` as value, and carries `If-None-Match` exactly when it holds an entry
with a non-empty etag, with that etag as value; without an entry it carries neither. -/
theorem C7_conditional_headers (env : Env) (w : World) (p : Client) (base : URL)
    (c : Cache) (ctx : Context) (identifier : String) (jobOverride : List String)
    (out : Outcome) (req : Request) (hu : p.url = some base) (hc : p.cache = some c)
    (hcall : p.GetWithContext env w ctx identifier jobOverride = some out)
    (hsent : Event.send req ∈ out.trace) :
    (req.Header.Has "If-Modified-Since" = true ↔
      ∃ entry, c.Peek (lookupURL base identifier jobOverride) = some entry) ∧
    (∀ entry, c.Peek (lookupURL base identifier jobOverride) = some entry →
      req.Header.Get "If-Modified-Since" = entry.cachedAt) ∧
    (req.Header.Has "If-None-Match" = true ↔
      ∃ entry, c.Peek (lookupURL base identifier jobOverride) = some entry ∧ entry.etag ≠ "") ∧
    (∀ entry, c.Peek (lookupURL base identifier jobOverride) = some entry → entry.etag ≠ "" →
      req.Header.Get "If-None-Match" = entry.etag) := by
  unfold Client.GetWithContext at hcall
  simp only [hu, hc, Cache.Get_fst] at hcall
  cases hreq : buildRequest env p ctx (lookupURL base identifier jobOverride)
      ((c.Peek (lookupURL base identifier jobOverride)).getD cacheValue.zero)
      (c.Peek (lookupURL base identifier jobOverride)).isSome with
  | error e =>
    simp only [hreq, Option.some.injEq] at hcall
    subst hcall
    simp at hsent
  | ok r =>
    have hr : req = r := by
      simp only [hreq] at hcall
      cases hdo : w.Do r with
      | error e =>
        simp only [hdo, Option.some.injEq] at hcall
        subst hcall
        simpa using hsent
      | ok resp =>
        simp only [hdo] at hcall
        split_ifs at hcall <;>
          (simp only [Option.some.injEq] at hcall
           subst hcall
           first
             | exact (List.mem_singleton.mp
                 (by simpa using finishFetch_send_mem _ _ _ _ _ _ _ _ _ hsent))
             | simpa using hsent)
    subst hr
    obtain ⟨h1, h2, h3, h4⟩ := buildRequest_headers _ _ _ _ _ _ _ hreq
    cases hpk : c.Peek (lookupURL base identifier jobOverride) with
    | none =>
      simp only [hpk, Option.isSome_none, Option.getD_none] at h1 h3
      simp [h1, h3]
    | some entry =>
      simp only [hpk, Option.isSome_some, Option.getD_some] at h1 h2 h3 h4
      refine ⟨by simp [h1], ?_, ?_, ?_⟩
      · intro e he; cases he; exact h2 trivial
      · simp [h3]
      · intro e he hne; cases he; exact h4 trivial hne

/-- Witness for C7: the request of the cache-hit test carries both headers. -/
theorem C7_conditional_headers_witness :
    (testRequest.Header.Has "If-Modified-Since" = true ↔
      ∃ entry, testCache.Peek (lookupURL testBase "test-id" []) = some entry) ∧
    (∀ entry, testCache.Peek (lookupURL testBase "test-id" []) = some entry →
      testRequest.Header.Get "If-Modified-Since" = entry.cachedAt) ∧
    (testRequest.Header.Has "If-None-Match" = true ↔
      ∃ entry, testCache.Peek (lookupURL testBase "test-id" []) = some entry ∧
        entry.etag ≠ "") ∧
    (∀ entry, testCache.Peek (lookupURL testBase "test-id" []) = some entry → entry.etag ≠ "" →
      testRequest.Header.Get "If-None-Match" = entry.etag) :=
  C7_conditional_headers fixtureEnv
    (serverWorld (mkResponse 304 "304 Not Modified" "" "" (.ok "")))
    { testClient with cache := some testCache } testBase testCache Context.Background
    "test-id" [] _ testRequest rfl rfl rfl (by decide)

/-- C6 fails as stated: when reading the body of the 200 response fails, the first call
returns the read error and caches nothing, so the second call, answered with 304, finds
no entry and returns the HTTP error for status 304. -/
theorem C6_counterexample_body_read_fails :
    ∃ out1 out2,
      testClient.GetWithContext fixtureEnv
        (serverWorld (mkResponse 200 "200 OK" "" "\"mock-etag\"" (.error "unexpected EOF")))
        Context.Background "test-id" [] = some out1 ∧
      out1.client.GetWithContext fixtureEnv
        (serverWorld (mkResponse 304 "304 Not Modified" "" "" (.ok "")))
        Context.Background "test-id" [] = some out2 ∧
      (out1.targets, out1.err) = (none, some "unexpected EOF") ∧
      (out2.targets, out2.err) = (none, some "HTTP error: 304 Not Modified") ∧
      (out2.targets, out2.err) ≠ (out1.targets, out1.err) :=
  ⟨_, _, rfl, rfl, by decide, by decide, by decide⟩

/-- C6, amended: on a client freshly built by `NewClient` with valid arguments, if a
first call receives a 200 response whose body is read successfully and a second call
with the same identifier and category receives a 304 response, then the second call
returns what the first returned (the same records, or the same decode error): it
decodes the payload the first call cached and does not read the second response's body. -/
theorem C6_revalidated_fetch_repeats_first (env : Env) (w1 w2 : World)
    (baseURL login password : String) (base : URL) (ctx1 ctx2 : Context)
    (identifier : String) (jobOverride : List String) (req1 req2 : Request)
    (resp1 resp2 : Response) (body : String)
    (hparse : env.Parse baseURL = .ok base) (hlogin : login ≠ "") (hpassword : password ≠ "")
    (hreq1 : buildRequest env (NewClient env baseURL login password) ctx1
      (lookupURL base identifier jobOverride) cacheValue.zero false = .ok req1)
    (hdo1 : w1.Do req1 = .ok resp1) (h200 : resp1.StatusCode = 200)
    (hbody : resp1.Body = .ok body)
    (hreq2 : buildRequest env (NewClient env baseURL login password) ctx2
      (lookupURL base identifier jobOverride)
      { data := some body, etag := resp1.Header "ETag",
        cachedAt := if resp1.Header "Last-Modified" = "" then w1.Now
                    else resp1.Header "Last-Modified" } true = .ok req2)
    (hdo2 : w2.Do req2 = .ok resp2) (h304 : resp2.StatusCode = 304) :
    ∃ out1 out2,
      (NewClient env baseURL login password).GetWithContext env w1 ctx1 identifier jobOverride
        = some out1 ∧
      out1.client.GetWithContext env w2 ctx2 identifier jobOverride = some out2 ∧
      (out1.targets, out1.err) = decodePayload env body ∧
      out2.targets = out1.targets ∧ out2.err = out1.err ∧
      out2.trace = [Event.cacheGet (lookupURL base identifier jobOverride),
        Event.newRequest "GET" (lookupURL base identifier jobOverride), Event.send req2,
        Event.unmarshal body] := by
  rw [NewClient_configured env baseURL login password base hparse hlogin hpassword]
    at hreq1 hreq2 ⊢
  generalize hurl : lookupURL base identifier jobOverride = url at *
  generalize hval : cacheValue.mk (some body) (resp1.Header "ETag")
    (if resp1.Header "Last-Modified" = "" then w1.Now else resp1.Header "Last-Modified")
    = value at *
  have hdata : value.data = some body := by rw [← hval]
  have h1 := GetWithContext_ok env w1
    { url := some base, cache := some { size := 1000, evictList := [] },
      login := login, password := password }
    base { size := 1000, evictList := [] } ctx1 identifier jobOverride req1 resp1 body
    rfl rfl (by rw [hurl]; exact hreq1) hdo1 h200 hbody
  rw [hurl, hval] at h1
  have hpeek : Cache.Peek
      (Cache.Add (Cache.Get { size := 1000, evictList := [] } url).2 url value) url =
      some value :=
    Cache.Add_peek_self _ _ _ (by rw [Cache.Get_size]; decide)
  have h2 := GetWithContext_not_modified env w2
    { url := some base,
      cache := some (Cache.Add (Cache.Get { size := 1000, evictList := [] } url).2 url value),
      login := login, password := password }
    base (Cache.Add (Cache.Get { size := 1000, evictList := [] } url).2 url value)
    ctx2 identifier jobOverride req2 resp2 value body
    rfl rfl (by rw [hurl]; exact hpeek) hdata (by rw [hurl]; exact hreq2) hdo2 h304
  rw [hurl] at h2
  exact ⟨_, _, h1, h2, rfl, rfl, rfl, rfl⟩

/-- Witness for C6: the cache-miss test followed by the cache-hit test on one client. -/
theorem C6_revalidated_fetch_repeats_first_witness :
    ∃ out1 out2,
      (NewClient fixtureEnv "http://example.com" "user" "password").GetWithContext fixtureEnv
        (serverWorld (mkResponse 200 "200 OK" "Wed, 04 Nov 2026 09:00:00 GMT" "\"mock-etag\""
          (.ok mockData))) Context.Background "test-id" [] = some out1 ∧
      out1.client.GetWithContext fixtureEnv
        (serverWorld (mkResponse 304 "304 Not Modified" "" "" (.ok "")))
        Context.Background "test-id" [] = some out2 ∧
      (out1.targets, out1.err) = decodePayload fixtureEnv mockData ∧
      out2.targets = out1.targets ∧ out2.err = out1.err ∧
      out2.trace = [Event.cacheGet (lookupURL testBase "test-id" []),
        Event.newRequest "GET" (lookupURL testBase "test-id" []), Event.send testRequest,
        Event.unmarshal mockData] :=
  C6_revalidated_fetch_repeats_first fixtureEnv
    (serverWorld (mkResponse 200 "200 OK" "Wed, 04 Nov 2026 09:00:00 GMT" "\"mock-etag\""
      (.ok mockData)))
    (serverWorld (mkResponse 304 "304 Not Modified" "" "" (.ok "")))
    "http://example.com" "user" "password" testBase Context.Background Context.Background
    "test-id" [] testRequestFresh testRequest _ _ mockData rfl (by decide) (by decide)
    rfl rfl rfl rfl rfl rfl rfl

/-- C9: start from the client `NewClient` returns, whose cache holds no entry, and make
any sequence of `GetWithContext` calls, whatever the responses and transport outcomes.
Every call returns, and if after a call some key holds an entry that it did not hold
before (a new or a changed entry), then that key is the lookup URL of the call and the
call sent a request that was answered with status 200. So no call that ends in a 304, a
410, another status, a request-construction error or a transport error creates or
modifies an entry. -/
theorem C9_entries_come_only_from_ok (env : Env) (baseURL login password : String)
    (calls : List Call) (call : Call) :
    (∀ k, (NewClient env baseURL login password).Peek k = none) ∧
    ∃ p out, runCalls env (NewClient env baseURL login password) calls = some p ∧
      p.GetWithContext env call.world call.ctx call.identifier call.jobOverride = some out ∧
      ∀ k v, out.client.Peek k = some v → p.Peek k ≠ some v →
        ∃ base req resp, p.url = some base ∧
          k = lookupURL base call.identifier call.jobOverride ∧
          Event.send req ∈ out.trace ∧ call.world.Do req = .ok resp ∧
          resp.StatusCode = 200 := by
  obtain ⟨hwf, hempty⟩ := NewClient_wellFormed env baseURL login password
  obtain ⟨p, hp, hpwf⟩ := runCalls_wellFormed env calls _ hwf
  obtain ⟨out, hout, -, hstep⟩ :=
    GetWithContext_step env call.world p call.ctx call.identifier call.jobOverride hpwf
  exact ⟨hempty, p, out, hp, hout, hstep⟩

/-- C8 fails as stated: the lookup URL is built with `JoinPath` and `String`, which
escape and clean the path. The identifier `a b` gives `.../node/a%20b`, which is
`base + "/node/a b"` for no base at all; and for a base that ends in a slash the doubled
slash of `base + "/node/test-id"` is removed. -/
theorem C8_counterexample_escaping_and_cleaning :
    lookupURL testBase "a b" [] = "http://example.com/node/a%20b" ∧
    testBase.String = "http://example.com" ∧
    lookupURL testBase "a b" [] ≠ testBase.String ++ "/" ++ "node" ++ "/" ++ "a b" ∧
    (¬ ∃ b : String, lookupURL testBase "a b" [] = b ++ "/" ++ "node" ++ "/" ++ "a b") ∧
    URL.String { Scheme := "http", Host := "example.com", Path := "/" } =
      "http://example.com/" ∧
    lookupURL { Scheme := "http", Host := "example.com", Path := "/" } "test-id" [] =
      "http://example.com/node/test-id" ∧
    lookupURL { Scheme := "http", Host := "example.com", Path := "/" } "test-id" [] ≠
      URL.String { Scheme := "http", Host := "example.com", Path := "/" } ++ "/" ++ "node" ++
        "/" ++ "test-id" := by
  refine ⟨by decide, by decide, by decide, ?_, by decide, by decide, by decide⟩
  rintro ⟨b, hb⟩
  have h1 : lookupURL testBase "a b" [] = "http://example.com/node/a%20b" := by decide
  rw [h1] at hb
  have hd := congrArg String.data hb
  simp only [String.data_append] at hd
  have hr := congrArg List.reverse hd
  simp only [List.reverse_append] at hr
  have h2 := congrArg (fun l => l.getD 1 'x') hr
  simp at h2

/-- C8, amended: for a base endpoint with a host, without opaque part, query or
fragment, whose path is empty or a sequence of plain elements without a trailing slash,
and for a category and an identifier that are plain path elements (not empty, not `.` or
`..`, without a slash or a byte that path escaping encodes), the lookup URL is exactly
`base + "/" + category + "/" + identifier`, where the category is `node` when no
override is passed and the first override otherwise; every call looks the cache up under
that string, builds its request for it, and adds to the cache under no other key. -/
theorem C8_lookup_url_of_plain_parts (env : Env) (w : World) (p : Client) (base : URL)
    (c : Cache) (ctx : Context) (segs : List String) (identifier : String)
    (jobOverride : List String) (hu : p.url = some base) (hc : p.cache = some c)
    (hopq : base.Opaque = "") (hhost : base.Host ≠ "") (hraw : base.RawPath = "")
    (hpath : base.Path = slashPath segs) (hquery : base.RawQuery = "")
    (hforce : base.ForceQuery = false) (hfrag : base.Fragment = "")
    (hsegs : ∀ s ∈ segs, plainSegment s = true)
    (hjob : plainSegment (jobOverride.headD "node") = true)
    (hid : plainSegment identifier = true) :
    lookupURL base identifier jobOverride =
      base.String ++ "/" ++ jobOverride.headD "node" ++ "/" ++ identifier ∧
    ∃ out rest, p.GetWithContext env w ctx identifier jobOverride = some out ∧
      out.trace =
        Event.cacheGet (base.String ++ "/" ++ jobOverride.headD "node" ++ "/" ++ identifier) ::
        Event.newRequest "GET"
          (base.String ++ "/" ++ jobOverride.headD "node" ++ "/" ++ identifier) :: rest ∧
      ∀ k v, Event.cacheAdd k v ∈ out.trace →
        k = base.String ++ "/" ++ jobOverride.headD "node" ++ "/" ++ identifier := by
  have hurl := lookupURL_plain base segs identifier jobOverride hopq hhost hraw hpath
    hquery hforce hfrag hsegs hjob hid
  obtain ⟨out, rest, h1, h2, h3⟩ :=
    GetWithContext_uses_lookupURL env w p base c ctx identifier jobOverride hu hc
  rw [hurl] at h2 h3
  exact ⟨hurl, out, rest, h1, h2, h3⟩

/-- Witness for C8: the URL of the tests, `ts.URL + "/node/test-id"`. -/
theorem C8_lookup_url_of_plain_parts_witness :
    lookupURL testBase "test-id" [] =
      testBase.String ++ "/" ++ ([] : List String).headD "node" ++ "/" ++ "test-id" ∧
    ∃ out rest, testClient.GetWithContext fixtureEnv
        (serverWorld (mkResponse 200 "200 OK" "" "" (.ok mockData)))
        Context.Background "test-id" [] = some out ∧
      out.trace =
        Event.cacheGet (testBase.String ++ "/" ++ ([] : List String).headD "node" ++ "/" ++
          "test-id") ::
        Event.newRequest "GET"
          (testBase.String ++ "/" ++ ([] : List String).headD "node" ++ "/" ++ "test-id") ::
          rest ∧
      ∀ k v, Event.cacheAdd k v ∈ out.trace →
        k = testBase.String ++ "/" ++ ([] : List String).headD "node" ++ "/" ++ "test-id" :=
  C8_lookup_url_of_plain_parts fixtureEnv
    (serverWorld (mkResponse 200 "200 OK" "" "" (.ok mockData))) testClient testBase
    { size := 1000, evictList := [] } Context.Background [] "test-id" [] rfl rfl rfl
    (by decide) rfl rfl rfl rfl rfl (fun _ h => nomatch h) (by decide) (by decide)


end Psd
